import Mathlib

/-!
Verification development for the watch-party synchronization server
(`server/src/index.ts`) and its client reconciler
(`src/app/room/[code]/page.tsx`).

The embedding is shallow: JavaScript numbers (IEEE doubles holding exact
small decimal values in every computation the claims touch) are modelled as
rationals `ℚ`, JS `Map`s as association lists, JS `Set`s as duplicate-free
lists, and the mutation of a `Room` object as a pure function returning the
updated room.  `undefined` payload fields become `Option`.
-/

namespace WatchParty

/-- The four playback action types (`type PlaybackActionType`). -/
inductive PlaybackActionType
  | play
  | pause
  | seek
  | rate
deriving DecidableEq

/-- `type ClientReport` from the server. -/
structure ClientReport where
  timeSeconds : ℚ
  isPlaying : Bool
  playbackRate : ℚ
  receivedAtMs : ℚ
  lastCorrectedAtMs : ℚ
deriving DecidableEq

/-- `type PlaybackState` from the server. -/
structure PlaybackState where
  isPlaying : Bool
  positionSeconds : ℚ
  playbackRate : ℚ
  updatedAtMs : ℚ
  seq : ℤ
deriving DecidableEq

/-- `type Room` from the server: sockets is a JS `Set` (duplicate-free,
insertion-ordered list), reports a JS `Map` (association list). -/
structure Room where
  code : String
  hostSocketId : String
  sockets : List String
  playback : PlaybackState
  reports : List (String × ClientReport)
deriving DecidableEq

/-- `const SYNC_TOLERANCE_SECONDS = 0.25`. -/
def SYNC_TOLERANCE_SECONDS : ℚ := 1/4

/-- `const HARD_SEEK_THRESHOLD_SECONDS = 2.0`. -/
def HARD_SEEK_THRESHOLD_SECONDS : ℚ := 2

/-- `const REPORT_STALE_MS = 4000`. -/
def REPORT_STALE_MS : ℚ := 4000

/-- `const CORRECT_COOLDOWN_MS = 800`. -/
def CORRECT_COOLDOWN_MS : ℚ := 800

/-- Return type of `getPlaybackSnapshot`. -/
structure PlaybackSnapshot where
  isPlaying : Bool
  positionSeconds : ℚ
  playbackRate : ℚ
  seq : ℤ
  serverTimeMs : ℚ
deriving DecidableEq

/-- `getPlaybackSnapshot(room, nowMs)` — pure projection of the stored
playback state to time `nowMs`. -/
def getPlaybackSnapshot (room : Room) (nowMs : ℚ) : PlaybackSnapshot :=
  let elapsedSeconds : ℚ :=
    if room.playback.isPlaying then
      ((nowMs - room.playback.updatedAtMs) / 1000) * room.playback.playbackRate
    else 0
  { isPlaying := room.playback.isPlaying
    positionSeconds := max 0 (room.playback.positionSeconds + elapsedSeconds)
    playbackRate := room.playback.playbackRate
    seq := room.playback.seq
    serverTimeMs := nowMs }

/-- The action payload `{ type, timeSeconds? }`.  A missing (`undefined`) or
non-finite `timeSeconds` is `none`; rationals are always finite, so the
`Number.isFinite` guard of the source maps to the `Option` pattern match. -/
structure PlaybackAction where
  type : PlaybackActionType
  timeSeconds : Option ℚ
deriving DecidableEq

/-- `applyPlaybackAction(room, nowMs, action)`.  First collapses elapsed time
into the stored position via the snapshot, then applies the action
(`timeSeconds` is clamped at 0 first; `rate` carries the desired rate in the
`timeSeconds` field, clamped to `[0.5, 2]`), and finally increments `seq`
unconditionally. -/
def applyPlaybackAction (room : Room) (nowMs : ℚ) (action : PlaybackAction) : Room :=
  let current := getPlaybackSnapshot room nowMs
  let pb0 : PlaybackState :=
    { room.playback with positionSeconds := current.positionSeconds, updatedAtMs := nowMs }
  let timeSeconds : Option ℚ := action.timeSeconds.map (fun t => max 0 t)
  let pb1 : PlaybackState :=
    match action.type with
    | .seek =>
        match timeSeconds with
        | some t => { pb0 with positionSeconds := t }
        | none => pb0
    | .rate =>
        match timeSeconds with
        | some t => { pb0 with playbackRate := min 2 (max (1/2) t) }
        | none => pb0
    | .play =>
        let pbA :=
          match timeSeconds with
          | some t => { pb0 with positionSeconds := t }
          | none => pb0
        { pbA with isPlaying := true }
    | .pause =>
        let pbA :=
          match timeSeconds with
          | some t => { pb0 with positionSeconds := t }
          | none => pb0
        { pbA with isPlaying := false }
  { room with playback := { pb1 with seq := pb1.seq + 1 } }

/-- The fresh room built by the `room:create` handler. -/
def createdRoom (code : String) (hostSocketId : String) (nowMs : ℚ) : Room :=
  { code := code
    hostSocketId := hostSocketId
    sockets := [hostSocketId]
    playback :=
      { isPlaying := false
        positionSeconds := 0
        playbackRate := 1
        updatedAtMs := nowMs
        seq := 0 }
    reports := [] }

/-- JS `Map.get`: first association for the key, if any. -/
def assocLookup {β : Type} (k : String) : List (String × β) → Option β
  | [] => none
  | (k0, v) :: rest => if k = k0 then some v else assocLookup k rest

/-- JS `Map.set`: replace the value at an existing key in place, otherwise
append the new entry. -/
def mapSet {β : Type} : List (String × β) → String → β → List (String × β)
  | [], k, v => [(k, v)]
  | (k0, v0) :: rest, k, v =>
      if k0 = k then (k0, v) :: rest else (k0, v0) :: mapSet rest k v

/-- JS `Map.delete`: drop the entry for the key (first association). -/
def mapDelete {β : Type} : List (String × β) → String → List (String × β)
  | [], _ => []
  | (k0, v0) :: rest, k => if k0 = k then rest else (k0, v0) :: mapDelete rest k

/-- `computeClientPositionAtNow(report, nowMs)` — project a member's
self-reported position forward using its own `isPlaying`/`rate`. -/
def computeClientPositionAtNow (report : ClientReport) (nowMs : ℚ) : ℚ :=
  let ageSeconds := max 0 ((nowMs - report.receivedAtMs) / 1000)
  let adv := if report.isPlaying then ageSeconds * report.playbackRate else 0
  max 0 (report.timeSeconds + adv)

/-- One element of the `drifts` array built by `getRoomSyncStatus`. -/
structure DriftEntry where
  socketId : String
  driftSeconds : ℚ
  abs : ℚ
deriving DecidableEq

/-- The member loop of `getRoomSyncStatus`: walks `room.sockets` in order and
returns `(allHaveFreshReports, worstAbsDriftSeconds, drifts)`.  A member
whose report is absent or older than `REPORT_STALE_MS` clears the
`allHaveFreshReports` flag and contributes no drift entry; the running
maximum over `|drift|` starts at 0. -/
def syncScan (reports : List (String × ClientReport)) (authPos : ℚ) (nowMs : ℚ) :
    List String → Bool × ℚ × List DriftEntry
  | [] => (true, 0, [])
  | sid :: rest =>
      let r := syncScan reports authPos nowMs rest
      match assocLookup sid reports with
      | none => (false, r.2.1, r.2.2)
      | some rep =>
          if nowMs - rep.receivedAtMs > REPORT_STALE_MS then
            (false, r.2.1, r.2.2)
          else
            let driftSeconds := computeClientPositionAtNow rep nowMs - authPos
            (r.1, max |driftSeconds| r.2.1,
              ⟨sid, driftSeconds, |driftSeconds|⟩ :: r.2.2)

/-- Return value of `getRoomSyncStatus`. -/
structure SyncStatus where
  snapshot : PlaybackSnapshot
  isSynced : Bool
  worstAbsDriftSeconds : ℚ
  allHaveFreshReports : Bool
  drifts : List DriftEntry

/-- `getRoomSyncStatus(room, nowMs)`. -/
def getRoomSyncStatus (room : Room) (nowMs : ℚ) : SyncStatus :=
  let snapshot := getPlaybackSnapshot room nowMs
  let r := syncScan room.reports snapshot.positionSeconds nowMs room.sockets
  { snapshot := snapshot
    isSynced := r.1 && r.2.2.all (fun d => decide (d.abs ≤ SYNC_TOLERANCE_SECONDS))
    worstAbsDriftSeconds := r.2.1
    allHaveFreshReports := r.1
    drifts := r.2.2 }

/-- Correction mode carried in a `playback:correct` message. -/
inductive CorrectionMode
  | soft
  | hard
deriving DecidableEq

/-- A targeted `playback:correct` message (`io.to(socketId).emit(...)`). -/
structure CorrectionMsg where
  socketId : String
  code : String
  targetTimeSeconds : ℚ
  isPlaying : Bool
  playbackRate : ℚ
  seq : ℤ
  serverTimeMs : ℚ
  mode : CorrectionMode
  toleranceSeconds : ℚ
deriving DecidableEq

/-- The per-member correction condition of the tick body:
`drift.abs > SYNC_TOLERANCE_SECONDS || stateMismatch`, where `stateMismatch`
is a play/pause flag difference or a rate difference above 0.001. -/
def needsCorrection (snap : PlaybackSnapshot) (d : DriftEntry) (report : ClientReport) : Prop :=
  d.abs > SYNC_TOLERANCE_SECONDS ∨ report.isPlaying ≠ snap.isPlaying ∨
    |report.playbackRate - snap.playbackRate| > 1/1000

instance (snap : PlaybackSnapshot) (d : DriftEntry) (report : ClientReport) :
    Decidable (needsCorrection snap d report) := by
  unfold needsCorrection
  infer_instance

/-- The `playback:correct` message emitted for a drift entry: target is the
authoritative snapshot position, mode is hard iff `|drift| ≥ 2.0` s. -/
def mkCorrectionMsg (code : String) (snap : PlaybackSnapshot) (d : DriftEntry) : CorrectionMsg :=
  { socketId := d.socketId
    code := code
    targetTimeSeconds := snap.positionSeconds
    isPlaying := snap.isPlaying
    playbackRate := snap.playbackRate
    seq := snap.seq
    serverTimeMs := snap.serverTimeMs
    mode := if d.abs ≥ HARD_SEEK_THRESHOLD_SECONDS then .hard else .soft
    toleranceSeconds := SYNC_TOLERANCE_SECONDS }

/-- The correction loop of the `setInterval` tick body: walks the drift list
in order, skipping members that need no correction or are inside the
cooldown, stamping `lastCorrectedAtMs` and emitting one targeted message for
each corrected member.  Returns the updated reports map and the emitted
messages in order. -/
def processDrifts (code : String) (snap : PlaybackSnapshot) (nowMs : ℚ) :
    List (String × ClientReport) → List DriftEntry →
      List (String × ClientReport) × List CorrectionMsg
  | reports, [] => (reports, [])
  | reports, d :: rest =>
      match assocLookup d.socketId reports with
      | none => processDrifts code snap nowMs reports rest
      | some report =>
          if needsCorrection snap d report then
            if nowMs - report.lastCorrectedAtMs < CORRECT_COOLDOWN_MS then
              processDrifts code snap nowMs reports rest
            else
              let reports1 :=
                mapSet reports d.socketId { report with lastCorrectedAtMs := nowMs }
              let r := processDrifts code snap nowMs reports1 rest
              (r.1, mkCorrectionMsg code snap d :: r.2)
          else
            processDrifts code snap nowMs reports rest

/-- One tick of the correction scheduler for a single room: corrections are
attempted only when every member has a fresh report. -/
def roomTick (room : Room) (nowMs : ℚ) : Room × List CorrectionMsg :=
  let s := getRoomSyncStatus room nowMs
  if s.allHaveFreshReports then
    let r := processDrifts room.code s.snapshot nowMs room.reports s.drifts
    ({ room with reports := r.1 }, r.2)
  else
    (room, [])

/-- The `playback:report` handler: upserts the member's report, clamping the
payload and preserving `lastCorrectedAtMs` (0 for a first report); ignored
for sockets outside the room. -/
def handleReport (room : Room) (sid : String) (timeSeconds : ℚ) (isPlaying : Bool)
    (playbackRate : ℚ) (nowMs : ℚ) : Room :=
  if sid ∈ room.sockets then
    { room with
      reports := mapSet room.reports sid
        { timeSeconds := max 0 timeSeconds
          isPlaying := isPlaying
          playbackRate := min 2 (max (1/2) playbackRate)
          receivedAtMs := nowMs
          lastCorrectedAtMs :=
            match assocLookup sid room.reports with
            | some r => r.lastCorrectedAtMs
            | none => 0 } }
  else room

/-- Server events that touch a room between scheduler ticks: a tick itself, a
`playback:report`, or a `playback:action` from a member. -/
inductive ServerEvent
  | tick (nowMs : ℚ)
  | report (sid : String) (timeSeconds : ℚ) (isPlaying : Bool) (playbackRate : ℚ)
      (nowMs : ℚ)
  | action (sid : String) (a : PlaybackAction) (nowMs : ℚ)

/-- Apply one server event to a room, returning the new room and the
corrections emitted (only ticks emit corrections). -/
def stepEvent (room : Room) : ServerEvent → Room × List CorrectionMsg
  | .tick nowMs => roomTick room nowMs
  | .report sid timeSeconds isPlaying playbackRate nowMs =>
      (handleReport room sid timeSeconds isPlaying playbackRate nowMs, [])
  | .action sid a nowMs =>
      (if sid ∈ room.sockets then applyPlaybackAction room nowMs a else room, [])

/-- Run a list of server events in order, concatenating emitted corrections. -/
def runEvents (room : Room) : List ServerEvent → Room × List CorrectionMsg
  | [] => (room, [])
  | e :: rest =>
      let r1 := stepEvent room e
      let r2 := runEvents r1.1 rest
      (r2.1, r1.2 ++ r2.2)

/-- ASCII model of JS `String.prototype.toUpperCase` for one character:
lower-case letters are shifted to upper case, everything else unchanged. -/
def jsUpperChar (c : Char) : Char :=
  if 97 ≤ c.toNat ∧ c.toNat ≤ 122 then Char.ofNat (c.toNat - 32) else c

/-- The whitespace characters removed by JS `String.prototype.trim`
(space, tab, LF, VT, FF, CR). -/
def isJsWhitespace (c : Char) : Bool :=
  decide (c.toNat = 32 ∨ c.toNat = 9 ∨ c.toNat = 10 ∨ c.toNat = 11 ∨
    c.toNat = 12 ∨ c.toNat = 13)

/-- JS `String.prototype.trim` on a character list: strip leading and
trailing whitespace. -/
def jsTrimChars (s : List Char) : List Char :=
  ((s.dropWhile isJsWhitespace).reverse.dropWhile isJsWhitespace).reverse

/-- `code.trim().toUpperCase()` — the normalization applied by the
`room:join`, `playback:action`, `playback:request` and `playback:report`
handlers before looking the room up. -/
def normalizeCode (code : String) : String :=
  String.mk ((jsTrimChars code.data).map jsUpperChar)

/-- `const alphabet = "ABCDEFGHJKLMNPQRSTUVWXYZ23456789"` of `randomRoomCode`. -/
def roomCodeAlphabet : List Char := "ABCDEFGHJKLMNPQRSTUVWXYZ23456789".data

/-- `randomRoomCode()`, with the stream of `Math.floor(Math.random() *
alphabet.length)` draws passed explicitly; `Math.floor(Math.random() * 32)`
always lies in `[0, 32)`, which the `% length` captures. -/
def randomRoomCode (randoms : List ℕ) : List Char :=
  randoms.map (fun i => roomCodeAlphabet.getD (i % roomCodeAlphabet.length) 'A')

/-- Digit character of JS `Number.prototype.toString(36)`: `0-9` then
lower-case `a-z`. -/
def base36Char (d : ℕ) : Char :=
  if d < 10 then Char.ofNat (48 + d) else Char.ofNat (87 + d)

/-- Base-36 digit expansion (most significant first) of a natural number, as
produced by `Number.prototype.toString(36)` on an integer. -/
def natToBase36 (n : ℕ) : List Char :=
  if _h : n < 36 then [base36Char n]
  else natToBase36 (n / 36) ++ [base36Char (n % 36)]
termination_by n
decreasing_by
  exact Nat.div_lt_self (by omega) (by omega)

/-- The collision fallback of `createUniqueRoomCode`:
`Date.now().toString(36).toUpperCase().slice(-6)`. -/
def fallbackRoomCode (nowMs : ℕ) : List Char :=
  let s := (natToBase36 nowMs).map jsUpperChar
  s.drop (s.length - 6)

/-- An upper-case ASCII letter or digit — the character class of stored room
codes. -/
def isUpperAlnum (c : Char) : Prop :=
  (65 ≤ c.toNat ∧ c.toNat ≤ 90) ∨ (48 ≤ c.toNat ∧ c.toNat ≤ 57)

instance (c : Char) : Decidable (isUpperAlnum c) := by
  unfold isUpperAlnum
  infer_instance

/-- State of the HTML media element as the reconciler sees it. -/
structure VideoState where
  currentTime : ℚ
  paused : Bool
  ended : Bool
  playbackRate : ℚ
  readyState : ℕ
deriving DecidableEq

/-- The client-side `PlaybackState` message payload. -/
structure PlaybackMsg where
  isPlaying : Bool
  positionSeconds : ℚ
  playbackRate : ℚ
  seq : ℤ
  serverTimeMs : ℚ
deriving DecidableEq

/-- The client-side `CorrectionPayload` for `playback:correct`. -/
structure CorrectionPayload where
  code : String
  targetTimeSeconds : ℚ
  isPlaying : Bool
  playbackRate : ℚ
  seq : ℤ
  serverTimeMs : ℚ
  mode : CorrectionMode
  toleranceSeconds : ℚ
deriving DecidableEq

/-- The reconciler's mutable state: the refs of the room page (`videoRef`,
`applyingRemoteRef`, `suppressEmitsUntilRef`, `isUserSeekingRef`,
`pendingStateRef`, `lastSeqAppliedRef`, `blockedAutoplayStateRef`,
`basePlaybackRateRef`, `correctionTimeoutRef`) plus the `needsGesture` and
`playbackRateUi` pieces of React state.  `correctionTimerDelayMs` is `some d`
while a soft-correction revert timer with delay `d` is pending. -/
structure ClientState where
  video : Option VideoState
  applyingRemote : Bool
  suppressEmitsUntil : ℚ
  isUserSeeking : Bool
  pendingState : Option PlaybackMsg
  lastSeqApplied : ℤ
  blockedAutoplayState : Option PlaybackMsg
  basePlaybackRate : ℚ
  correctionTimerDelayMs : Option ℚ
  needsGesture : Bool
  playbackRateUi : ℚ
deriving DecidableEq

/-- Initial values of the reconciler refs and state
(`lastSeqAppliedRef = useRef<number>(-1)` etc.). -/
def initialClientState : ClientState :=
  { video := none
    applyingRemote := false
    suppressEmitsUntil := 0
    isUserSeeking := false
    pendingState := none
    lastSeqApplied := -1
    blockedAutoplayState := none
    basePlaybackRate := 1
    correctionTimerDelayMs := none
    needsGesture := false
    playbackRateUi := 1 }

/-- `computeTargetTimeSeconds(state)` — project the message's position
forward by the message's own age, play flag and rate. -/
def computeTargetTimeSeconds (nowMs : ℚ) (state : PlaybackMsg) : ℚ :=
  let ageSeconds := max 0 ((nowMs - state.serverTimeMs) / 1000)
  if state.isPlaying then state.positionSeconds + ageSeconds * state.playbackRate
  else state.positionSeconds

/-- `applyPlaybackStateToVideo(state)`.  `playOk` is the outcome of the
`video.play()` promise (`false` when the platform blocks autoplay).  The
deferred `setTimeout` that clears `applyingRemoteRef` after 500 ms is a
separate later event, so the synchronous result keeps `applyingRemote`
set. -/
def applyPlaybackStateToVideo (cs : ClientState) (nowMs : ℚ) (playOk : Bool)
    (state : PlaybackMsg) : ClientState :=
  match cs.video with
  | none => cs
  | some video =>
      if state.seq ≤ cs.lastSeqApplied then cs
      else if video.readyState < 1 then { cs with pendingState := some state }
      else if cs.isUserSeeking then { cs with pendingState := some state }
      else
        let targetTimeSeconds := computeTargetTimeSeconds nowMs state
        let cs1 := { cs with
          basePlaybackRate := state.playbackRate
          playbackRateUi := state.playbackRate
          correctionTimerDelayMs := none
          applyingRemote := true
          suppressEmitsUntil := max cs.suppressEmitsUntil (nowMs + 900) }
        let video1 := { video with playbackRate := state.playbackRate }
        let diff := targetTimeSeconds - video1.currentTime
        let threshold : ℚ := if state.isPlaying then 1/2 else 12/100
        let video2 :=
          if |diff| > threshold then { video1 with currentTime := max 0 targetTimeSeconds }
          else video1
        if state.isPlaying then
          if video2.paused = true ∧ video2.ended = false then
            if playOk then
              { cs1 with
                video := some { video2 with paused := false }
                blockedAutoplayState := none
                needsGesture := false
                lastSeqApplied := state.seq }
            else
              { cs1 with
                video := some video2
                blockedAutoplayState := some state
                needsGesture := true
                lastSeqApplied := state.seq }
          else
            { cs1 with video := some video2, lastSeqApplied := state.seq }
        else
          { cs1 with
            video := some { video2 with paused := true }
            blockedAutoplayState := none
            needsGesture := false
            lastSeqApplied := state.seq }

/-- The shared play/pause tail of the `playback:correct` handler: resume (or
surface the autoplay-gesture fallback on failure) when the authoritative
state is playing, pause otherwise.  Touches only the `paused` flag of the
element plus the blocked-state/gesture bookkeeping. -/
def resolvePlayPause (cs : ClientState) (video : VideoState) (blockedOnFail : PlaybackMsg)
    (isPlaying : Bool) (playOk : Bool) : ClientState :=
  if isPlaying then
    if video.paused = true ∧ video.ended = false then
      if playOk then { cs with video := some { video with paused := false } }
      else
        { cs with
          video := some video
          blockedAutoplayState := some blockedOnFail
          needsGesture := true }
    else { cs with video := some video }
  else { cs with video := some { video with paused := true } }

/-- The `socket.on("playback:correct")` handler.  Hard mode (or a locally
measured drift of at least 2 s) force-seeks to the target and applies the
authoritative rate; soft mode optionally performs a bounded partial seek
(when `|diff| > 0.75`, capped at ±0.5 s), nudges the playback rate by
`clamp(diff * 0.25, -0.35, 0.35)` clamped into `[0.5, 2]`, and arms a
1200 ms timer that reverts the rate to the authoritative base rate.  The
trailing 400 ms `setTimeout` clearing `applyingRemoteRef` is a separate
later event. -/
def handlePlaybackCorrect (cs : ClientState) (roomCode : String) (nowMs : ℚ)
    (playOk : Bool) (payload : CorrectionPayload) : ClientState :=
  if normalizeCode payload.code ≠ roomCode then cs
  else
    match cs.video with
    | none => cs
    | some video =>
        let cs1 := { cs with
          applyingRemote := true
          suppressEmitsUntil := max cs.suppressEmitsUntil (nowMs + 900)
          basePlaybackRate := payload.playbackRate
          playbackRateUi := payload.playbackRate
          correctionTimerDelayMs := none }
        let target := computeTargetTimeSeconds nowMs
          { isPlaying := payload.isPlaying
            positionSeconds := payload.targetTimeSeconds
            playbackRate := payload.playbackRate
            seq := payload.seq
            serverTimeMs := payload.serverTimeMs }
        let diff := target - video.currentTime
        let blocked : PlaybackMsg :=
          { isPlaying := payload.isPlaying
            positionSeconds := payload.targetTimeSeconds
            playbackRate := payload.playbackRate
            seq := payload.seq
            serverTimeMs := payload.serverTimeMs }
        if payload.mode = CorrectionMode.hard ∨ |diff| ≥ 2 then
          resolvePlayPause cs1
            { video with currentTime := max 0 target, playbackRate := payload.playbackRate }
            blocked payload.isPlaying playOk
        else
          let video1 :=
            if |diff| > 3/4 then
              { video with
                  currentTime :=
                    max 0 (video.currentTime + max (-(1/2)) (min (1/2) (diff * (1/2)))) }
            else video
          let nudged :=
            max (1/2) (min 2 (payload.playbackRate + max (-(7/20)) (min (7/20) (diff * (1/4)))))
          resolvePlayPause { cs1 with correctionTimerDelayMs := some 1200 }
            { video1 with playbackRate := nudged }
            blocked payload.isPlaying playOk

/-- Firing of the soft-correction revert timer: restore the base playback
rate and release remote suppression (a no-op when no timer is pending; when
the video element is gone the callback returns after the timer has already
fired). -/
def fireCorrectionTimer (cs : ClientState) : ClientState :=
  match cs.correctionTimerDelayMs with
  | none => cs
  | some _ =>
      match cs.video with
      | none => { cs with correctionTimerDelayMs := none }
      | some v =>
          { cs with
            video := some { v with playbackRate := cs.basePlaybackRate }
            applyingRemote := false
            correctionTimerDelayMs := none }

/-- JS `Set.add`: append the element when absent. -/
def addSocket (l : List String) (sid : String) : List String :=
  if sid ∈ l then l else l ++ [sid]

/-- Result surfaced to the caller of `room:join`. -/
inductive JoinResult
  | roomNotFound
  | joined (code : String)
deriving DecidableEq

/-- `room:info` broadcast payload. -/
inductive Emission
  | roomInfo (code : String) (hostSocketId : String) (usersCount : ℕ)
deriving DecidableEq

/-- The `room:create` handler on the registry: store a fresh room under the
generated code with the creator as host and sole member. -/
def registryCreate (reg : List (String × Room)) (code : String) (sid : String)
    (nowMs : ℚ) : List (String × Room) :=
  mapSet reg code (createdRoom code sid nowMs)

/-- The `room:join` handler on the registry: normalize the code, fail with
`RoomNotFound` when absent, otherwise add the caller to the room's socket
set. -/
def registryJoin (reg : List (String × Room)) (code : String) (sid : String) :
    List (String × Room) × JoinResult :=
  match assocLookup (normalizeCode code) reg with
  | none => (reg, .roomNotFound)
  | some room =>
      (mapSet reg (normalizeCode code)
        { room with sockets := addSocket room.sockets sid },
        .joined room.code)

/-- The `disconnect` handler: walk every room containing the socket, remove
it (and its report); when the host left, promote the first remaining member
or delete the empty room; when the room became empty, delete it; otherwise
rebroadcast `room:info`. -/
def disconnectSocket (sid : String) : List (String × Room) →
    List (String × Room) × List Emission
  | [] => ([], [])
  | (code, room) :: rest =>
      let r := disconnectSocket sid rest
      if sid ∈ room.sockets then
        let room1 := { room with
          sockets := room.sockets.erase sid
          reports := mapDelete room.reports sid }
        if room.hostSocketId = sid then
          match room1.sockets.head? with
          | none => r
          | some nextHost =>
              ((code, { room1 with hostSocketId := nextHost }) :: r.1,
                Emission.roomInfo code nextHost room1.sockets.length :: r.2)
        else if room1.sockets.length = 0 then r
        else ((code, room1) :: r.1,
          Emission.roomInfo code room1.hostSocketId room1.sockets.length :: r.2)
      else ((code, room) :: r.1, r.2)

/-- The registry invariant of the claim: every stored room has at least one
member and its host is one of them. -/
def RegistryInv (reg : List (String × Room)) : Prop :=
  ∀ p ∈ reg, p.2.sockets ≠ [] ∧ p.2.hostSocketId ∈ p.2.sockets

/-- The fresh-report test of the scheduler tick, packaged: `some rep` when
the member has a report no older than `REPORT_STALE_MS`, else `none`. -/
def freshEntry (reports : List (String × ClientReport)) (nowMs : ℚ) (sid : String) :
    Option ClientReport :=
  match assocLookup sid reports with
  | none => none
  | some rep => if nowMs - rep.receivedAtMs > REPORT_STALE_MS then none else some rep

/-- The drift entry the tick builds for a fresh member. -/
def mkDriftEntry (authPos nowMs : ℚ) (sid : String) (rep : ClientReport) : DriftEntry :=
  { socketId := sid
    driftSeconds := computeClientPositionAtNow rep nowMs - authPos
    abs := |computeClientPositionAtNow rep nowMs - authPos| }

/-- Concrete report used by witnesses: in sync with the authoritative state. -/
def wReportA : ClientReport :=
  { timeSeconds := 10, isPlaying := true, playbackRate := 1
    receivedAtMs := 10000, lastCorrectedAtMs := 0 }

/-- Concrete report used by witnesses: 3 s ahead of the authoritative state. -/
def wReportB : ClientReport :=
  { timeSeconds := 13, isPlaying := true, playbackRate := 1
    receivedAtMs := 10000, lastCorrectedAtMs := 0 }

/-- Concrete two-member room used by witnesses: member B drifts by 3 s. -/
def wRoom : Room :=
  { code := "AB23CD", hostSocketId := "A", sockets := ["A", "B"]
    playback :=
      { isPlaying := true, positionSeconds := 10, playbackRate := 1
        updatedAtMs := 10000, seq := 3 }
    reports := [("A", wReportA), ("B", wReportB)] }

/-- Concrete one-member room used by witnesses: fully in sync. -/
def wRoomSynced : Room :=
  { code := "AB23CD", hostSocketId := "A", sockets := ["A"]
    playback :=
      { isPlaying := true, positionSeconds := 10, playbackRate := 1
        updatedAtMs := 10000, seq := 3 }
    reports := [("A", wReportA)] }

/-- Concrete media element used by the C5 witness. -/
def wVideo : VideoState :=
  { currentTime := 7, paused := false, ended := false, playbackRate := 1, readyState := 2 }

/-- Concrete reconciler state used by the C5 witness. -/
def wClientState : ClientState :=
  { initialClientState with video := some wVideo, lastSeqApplied := 5 }

/-- Concrete stale message (its `seq` equals `lastAppliedSeq`). -/
def wStaleMsg : PlaybackMsg :=
  { isPlaying := true, positionSeconds := 9, playbackRate := 1, seq := 5, serverTimeMs := 0 }

/-- Drift as measured by the `playback:correct` handler: the projected
authoritative target position minus the element's current position. -/
def correctionDrift (nowMs : ℚ) (payload : CorrectionPayload) (video : VideoState) : ℚ :=
  computeTargetTimeSeconds nowMs
    { isPlaying := payload.isPlaying
      positionSeconds := payload.targetTimeSeconds
      playbackRate := payload.playbackRate
      seq := payload.seq
      serverTimeMs := payload.serverTimeMs } - video.currentTime

/-- Concrete media element for the C7 scenario: parked at position 0. -/
def cVideo : VideoState :=
  { currentTime := 0, paused := true, ended := false, playbackRate := 1, readyState := 2 }

/-- Concrete reconciler state for the C7 scenario. -/
def cClientState : ClientState :=
  { initialClientState with video := some cVideo }

/-- Concrete soft correction targeting position 1 (local drift `target -
local = 1`; the claim's drift `local - target = -1`). -/
def cPayload : CorrectionPayload :=
  { code := "AB23CD", targetTimeSeconds := 1, isPlaying := false, playbackRate := 1
    seq := 7, serverTimeMs := 10000, mode := CorrectionMode.soft, toleranceSeconds := 1/4 }

/-- Concrete three-member room for the C8 witness. -/
def wRoom3 : Room :=
  { code := "AB23CD", hostSocketId := "A", sockets := ["A", "B", "C"]
    playback :=
      { isPlaying := false, positionSeconds := 0, playbackRate := 1
        updatedAtMs := 0, seq := 0 }
    reports := [] }

/-- Concrete one-member room for the C8 witness. -/
def wRoom1 : Room :=
  { code := "EF45GH", hostSocketId := "A", sockets := ["A"]
    playback :=
      { isPlaying := false, positionSeconds := 0, playbackRate := 1
        updatedAtMs := 0, seq := 0 }
    reports := [] }

/-- Playback states of a room reachable through the state-mutating server
operations: room creation followed by any sequence of `applyPlaybackAction`
calls (the remaining handlers never touch `room.playback`). -/
inductive ReachableRoom : Room → Prop
  | init (code hostSocketId : String) (nowMs : ℚ) :
      ReachableRoom (createdRoom code hostSocketId nowMs)
  | step (room : Room) (nowMs : ℚ) (a : PlaybackAction) :
      ReachableRoom room → ReachableRoom (applyPlaybackAction room nowMs a)

end WatchParty

namespace WatchParty

/-- `applyPlaybackAction` never touches `seq` before the final unconditional
`room.playback.seq += 1`. -/
theorem applyPlaybackAction_seq (room : Room) (nowMs : ℚ) (a : PlaybackAction) :
    (applyPlaybackAction room nowMs a).playback.seq = room.playback.seq + 1 := by
  cases a with
  | mk type timeSeconds =>
    cases type <;> cases timeSeconds <;> rfl

/-- Folding a list of timed actions over a room adds the list length to `seq`. -/
theorem foldl_applyPlaybackAction_seq (room : Room) (l : List (ℚ × PlaybackAction)) :
    (l.foldl (fun r p => applyPlaybackAction r p.1 p.2) room).playback.seq =
      room.playback.seq + l.length := by
  induction l generalizing room with
  | nil => simp
  | cons p rest ih =>
      rw [List.foldl_cons, ih, applyPlaybackAction_seq]
      simp only [List.length_cons]
      push_cast
      ring

/-- Claim C1: `getPlaybackSnapshot(room, now)` returns
`positionSeconds = max(0, positionSeconds + (isPlaying ? ((now - updatedAtMs)/1000) * playbackRate : 0))`
together with the stored `isPlaying`, `playbackRate` and `seq` (the room is
not mutated — the embedding of the function is pure); concretely, a playing
state at position 10 with rate 1.5 updated at `T` projects to exactly 13 at
`T + 2000` ms. -/
theorem claim_C1_snapshot_projection :
    (∀ (room : Room) (nowMs : ℚ),
      getPlaybackSnapshot room nowMs =
        { isPlaying := room.playback.isPlaying
          positionSeconds := max 0 (room.playback.positionSeconds +
            (if room.playback.isPlaying then
              ((nowMs - room.playback.updatedAtMs) / 1000) * room.playback.playbackRate
            else 0))
          playbackRate := room.playback.playbackRate
          seq := room.playback.seq
          serverTimeMs := nowMs }) ∧
    (∀ T : ℚ,
      (getPlaybackSnapshot
        { code := "R", hostSocketId := "h", sockets := ["h"], reports := []
          playback :=
            { isPlaying := true, positionSeconds := 10, playbackRate := 3/2
              updatedAtMs := T, seq := 4 } }
        (T + 2000)).positionSeconds = 13) := by
  refine ⟨fun room nowMs => rfl, fun T => ?_⟩
  show max 0 (10 + ((T + 2000 - T) / 1000) * (3/2)) = 13
  norm_num

theorem assocLookup_mapSet_self {β : Type} (l : List (String × β)) (k : String) (v : β) :
    assocLookup k (mapSet l k v) = some v := by
  induction l with
  | nil => simp [mapSet, assocLookup]
  | cons p rest ih =>
      by_cases h : p.1 = k
      · simp [mapSet, assocLookup, h]
      · simp only [mapSet]
        rw [if_neg (by simpa using h)]
        simp only [assocLookup]
        rw [if_neg (fun hk => h hk.symm)]
        exact ih

theorem assocLookup_mapSet_ne {β : Type} (l : List (String × β)) (k k2 : String) (v : β)
    (h : k2 ≠ k) : assocLookup k2 (mapSet l k v) = assocLookup k2 l := by
  induction l with
  | nil => simp [mapSet, assocLookup, h]
  | cons p rest ih =>
      by_cases hp : p.1 = k
      · simp only [mapSet, if_pos hp, assocLookup]
        rw [if_neg (fun hk => h (hk.trans hp)), if_neg (fun hk => h (hk.trans hp))]
      · simp only [mapSet, if_neg hp, assocLookup]
        by_cases hk : k2 = p.1
        · rw [if_pos hk, if_pos hk]
        · rw [if_neg hk, if_neg hk]
          exact ih

theorem freshEntry_eq_some {reports : List (String × ClientReport)} {nowMs : ℚ} {sid : String}
    {rep : ClientReport} :
    freshEntry reports nowMs sid = some rep ↔
      assocLookup sid reports = some rep ∧ nowMs - rep.receivedAtMs ≤ REPORT_STALE_MS := by
  unfold freshEntry
  cases h : assocLookup sid reports with
  | none => simp
  | some r =>
      by_cases hs : nowMs - r.receivedAtMs > REPORT_STALE_MS
      · simp only [if_pos hs]
        constructor
        · intro hc
          exact absurd hc (by simp)
        · rintro ⟨hr, hle⟩
          cases hr
          exact absurd hs (not_lt.mpr hle)
      · simp only [if_neg hs, Option.some_inj]
        constructor
        · rintro rfl
          exact ⟨rfl, not_lt.mp hs⟩
        · rintro ⟨hr, _⟩
          cases hr
          rfl

/-- Closed form of the member loop of `getRoomSyncStatus`. -/
theorem syncScan_eq (reports : List (String × ClientReport)) (authPos nowMs : ℚ)
    (sockets : List String) :
    syncScan reports authPos nowMs sockets =
      (sockets.all (fun sid => (freshEntry reports nowMs sid).isSome),
       (sockets.filterMap
          (fun sid => (freshEntry reports nowMs sid).map (mkDriftEntry authPos nowMs sid))).foldr
            (fun d m => max d.abs m) 0,
       sockets.filterMap
          (fun sid => (freshEntry reports nowMs sid).map (mkDriftEntry authPos nowMs sid))) := by
  induction sockets with
  | nil => rfl
  | cons sid rest ih =>
      simp only [syncScan, ih]
      cases h : assocLookup sid reports with
      | none =>
          simp [freshEntry, h, List.all_cons, List.filterMap_cons]
      | some rep =>
          by_cases hs : nowMs - rep.receivedAtMs > REPORT_STALE_MS
          · simp [freshEntry, h, hs, List.all_cons, List.filterMap_cons]
          · simp [freshEntry, h, hs, List.all_cons, List.filterMap_cons, mkDriftEntry]

theorem getRoomSyncStatus_drifts (room : Room) (nowMs : ℚ) :
    (getRoomSyncStatus room nowMs).drifts =
      room.sockets.filterMap
        (fun sid => (freshEntry room.reports nowMs sid).map
          (mkDriftEntry (getPlaybackSnapshot room nowMs).positionSeconds nowMs sid)) := by
  simp only [getRoomSyncStatus, syncScan_eq]

theorem getRoomSyncStatus_allFresh (room : Room) (nowMs : ℚ) :
    (getRoomSyncStatus room nowMs).allHaveFreshReports =
      room.sockets.all (fun sid => (freshEntry room.reports nowMs sid).isSome) := by
  simp only [getRoomSyncStatus, syncScan_eq]

theorem getRoomSyncStatus_worst (room : Room) (nowMs : ℚ) :
    (getRoomSyncStatus room nowMs).worstAbsDriftSeconds =
      (getRoomSyncStatus room nowMs).drifts.foldr (fun d m => max d.abs m) 0 := by
  rw [getRoomSyncStatus_drifts]
  simp only [getRoomSyncStatus, syncScan_eq]

theorem getRoomSyncStatus_isSynced (room : Room) (nowMs : ℚ) :
    (getRoomSyncStatus room nowMs).isSynced =
      ((getRoomSyncStatus room nowMs).allHaveFreshReports &&
        (getRoomSyncStatus room nowMs).drifts.all
          (fun d => decide (d.abs ≤ SYNC_TOLERANCE_SECONDS))) := by
  rw [getRoomSyncStatus_drifts, getRoomSyncStatus_allFresh]
  simp only [getRoomSyncStatus, syncScan_eq]

theorem getRoomSyncStatus_snapshot (room : Room) (nowMs : ℚ) :
    (getRoomSyncStatus room nowMs).snapshot = getPlaybackSnapshot room nowMs := rfl

theorem foldr_max_le (ds : List DriftEntry) (d : DriftEntry) (hd : d ∈ ds) :
    d.abs ≤ ds.foldr (fun d m => max d.abs m) 0 := by
  induction ds with
  | nil => cases hd
  | cons a rest ih =>
      rcases List.mem_cons.mp hd with h | h
      · subst h
        exact le_max_left _ _
      · exact (ih h).trans (le_max_right _ _)

theorem foldr_max_attained (ds : List DriftEntry) (hne : ds ≠ [])
    (hnn : ∀ d ∈ ds, 0 ≤ d.abs) :
    ∃ d ∈ ds, ds.foldr (fun d m => max d.abs m) 0 = d.abs := by
  induction ds with
  | nil => exact absurd rfl hne
  | cons a rest ih =>
      cases rest with
      | nil =>
          refine ⟨a, List.mem_cons_self _ _, ?_⟩
          simp only [List.foldr]
          exact max_eq_left (hnn a (List.mem_cons_self _ _))
      | cons b rest2 =>
          obtain ⟨d, hd, hfold⟩ := ih (by simp) (fun d h => hnn d (List.mem_cons_of_mem _ h))
          rcases le_total ((b :: rest2).foldr (fun d m => max d.abs m) 0) a.abs with h | h
          · exact ⟨a, List.mem_cons_self _ _, max_eq_left h⟩
          · refine ⟨d, List.mem_cons_of_mem _ hd, ?_⟩
            simp only [List.foldr] at h ⊢
            rw [max_eq_right h]
            simpa using hfold

theorem mem_drifts_iff (room : Room) (nowMs : ℚ) (d : DriftEntry) :
    d ∈ (getRoomSyncStatus room nowMs).drifts ↔
      ∃ sid ∈ room.sockets, ∃ rep, freshEntry room.reports nowMs sid = some rep ∧
        d = mkDriftEntry (getPlaybackSnapshot room nowMs).positionSeconds nowMs sid rep := by
  rw [getRoomSyncStatus_drifts, List.mem_filterMap]
  constructor
  · rintro ⟨sid, hsid, hmap⟩
    obtain ⟨rep, hf, hd⟩ := Option.map_eq_some'.mp hmap
    exact ⟨sid, hsid, rep, hf, hd.symm⟩
  · rintro ⟨sid, hsid, rep, hf, hd⟩
    exact ⟨sid, hsid, by rw [hf, Option.map_some', hd]⟩

theorem allFresh_iff (room : Room) (nowMs : ℚ) :
    (getRoomSyncStatus room nowMs).allHaveFreshReports = true ↔
      ∀ sid ∈ room.sockets, ∃ rep, assocLookup sid room.reports = some rep ∧
        nowMs - rep.receivedAtMs ≤ REPORT_STALE_MS := by
  rw [getRoomSyncStatus_allFresh, List.all_eq_true]
  refine forall_congr' fun sid => forall_congr' fun _ => ?_
  rw [Option.isSome_iff_exists]
  exact exists_congr fun rep => freshEntry_eq_some

/-- Claim C6: on a scheduler pass the indicator satisfies: `isSynced` is true
iff every current member has a report no older than 4000 ms whose projected
drift (client position minus authoritative snapshot position) is within
0.25 s in absolute value; a member whose report is absent or older than
4000 ms contributes no drift entry and forces `isSynced` false; and
`worstAbsDriftSeconds` is the maximum `|drift|` over the fresh reports (0 if
there are none). -/
theorem claim_C6_sync_indicator (room : Room) (nowMs : ℚ) :
    ((getRoomSyncStatus room nowMs).isSynced = true ↔
      ∀ sid ∈ room.sockets, ∃ rep,
        assocLookup sid room.reports = some rep ∧
        nowMs - rep.receivedAtMs ≤ REPORT_STALE_MS ∧
        |computeClientPositionAtNow rep nowMs -
          (getRoomSyncStatus room nowMs).snapshot.positionSeconds| ≤
            SYNC_TOLERANCE_SECONDS) ∧
    (∀ sid ∈ room.sockets,
      (∀ rep, assocLookup sid room.reports = some rep →
        nowMs - rep.receivedAtMs > REPORT_STALE_MS) →
      (∀ d ∈ (getRoomSyncStatus room nowMs).drifts, d.socketId ≠ sid) ∧
        (getRoomSyncStatus room nowMs).isSynced = false) ∧
    (∀ d ∈ (getRoomSyncStatus room nowMs).drifts,
      d.socketId ∈ room.sockets ∧ ∃ rep,
        assocLookup d.socketId room.reports = some rep ∧
        nowMs - rep.receivedAtMs ≤ REPORT_STALE_MS ∧
        d.driftSeconds = computeClientPositionAtNow rep nowMs -
          (getRoomSyncStatus room nowMs).snapshot.positionSeconds ∧
        d.abs = |d.driftSeconds|) ∧
    (∀ d ∈ (getRoomSyncStatus room nowMs).drifts,
      d.abs ≤ (getRoomSyncStatus room nowMs).worstAbsDriftSeconds) ∧
    ((getRoomSyncStatus room nowMs).drifts = [] →
      (getRoomSyncStatus room nowMs).worstAbsDriftSeconds = 0) ∧
    ((getRoomSyncStatus room nowMs).drifts ≠ [] →
      ∃ d ∈ (getRoomSyncStatus room nowMs).drifts,
        (getRoomSyncStatus room nowMs).worstAbsDriftSeconds = d.abs) := by
  have hmem := mem_drifts_iff room nowMs
  have habs : ∀ d ∈ (getRoomSyncStatus room nowMs).drifts, d.abs = |d.driftSeconds| := by
    intro d hd
    obtain ⟨sid, _, rep, _, hd2⟩ := (hmem d).mp hd
    rw [hd2]
    rfl
  refine ⟨?_, ?_, ?_, ?_, ?_, ?_⟩
  · rw [getRoomSyncStatus_isSynced, Bool.and_eq_true, allFresh_iff, List.all_eq_true]
    rw [getRoomSyncStatus_snapshot]
    constructor
    · rintro ⟨hfresh, hall⟩ sid hsid
      obtain ⟨rep, hrep, hage⟩ := hfresh sid hsid
      refine ⟨rep, hrep, hage, ?_⟩
      have hd : mkDriftEntry (getPlaybackSnapshot room nowMs).positionSeconds nowMs sid rep ∈
          (getRoomSyncStatus room nowMs).drifts :=
        (hmem _).mpr ⟨sid, hsid, rep, freshEntry_eq_some.mpr ⟨hrep, hage⟩, rfl⟩
      have := hall _ hd
      rw [decide_eq_true_eq] at this
      exact this
    · intro h
      constructor
      · intro sid hsid
        obtain ⟨rep, hrep, hage, _⟩ := h sid hsid
        exact ⟨rep, hrep, hage⟩
      · intro d hd
        rw [decide_eq_true_eq]
        obtain ⟨sid, hsid, rep, hf, hd2⟩ := (hmem d).mp hd
        obtain ⟨hrep, hage⟩ := freshEntry_eq_some.mp hf
        obtain ⟨rep2, hrep2, _, htol⟩ := h sid hsid
        rw [hrep] at hrep2
        cases hrep2
        rw [hd2]
        exact htol
  · intro sid hsid hstale
    have hnone : freshEntry room.reports nowMs sid = none := by
      unfold freshEntry
      cases h : assocLookup sid room.reports with
      | none => rfl
      | some rep => exact if_pos (hstale rep h)
    constructor
    · intro d hd hdsid
      obtain ⟨sid2, _, rep, hf, hd2⟩ := (hmem d).mp hd
      have : sid2 = sid := by rw [← hdsid, hd2]; rfl
      rw [this, hnone] at hf
      cases hf
    · rw [getRoomSyncStatus_isSynced]
      have : (getRoomSyncStatus room nowMs).allHaveFreshReports = false := by
        rw [getRoomSyncStatus_allFresh]
        refine List.all_eq_false.mpr ⟨sid, hsid, ?_⟩
        rw [hnone]
        simp
      rw [this, Bool.false_and]
  · intro d hd
    obtain ⟨sid, hsid, rep, hf, hd2⟩ := (hmem d).mp hd
    obtain ⟨hrep, hage⟩ := freshEntry_eq_some.mp hf
    refine ⟨by rw [hd2]; exact hsid, rep, by rw [hd2]; exact hrep, hage, ?_, habs d hd⟩
    rw [getRoomSyncStatus_snapshot, hd2]
    rfl
  · intro d hd
    rw [getRoomSyncStatus_worst]
    exact foldr_max_le _ d hd
  · intro h
    rw [getRoomSyncStatus_worst, h]
    rfl
  · intro h
    rw [getRoomSyncStatus_worst]
    refine foldr_max_attained _ h fun d hd => ?_
    rw [habs d hd]
    exact abs_nonneg _

theorem processDrifts_cons_none {code : String} {snap : PlaybackSnapshot} {nowMs : ℚ}
    {reports : List (String × ClientReport)} {d : DriftEntry} {rest : List DriftEntry}
    (h : assocLookup d.socketId reports = none) :
    processDrifts code snap nowMs reports (d :: rest) =
      processDrifts code snap nowMs reports rest := by
  simp only [processDrifts, h]

theorem processDrifts_cons_skip {code : String} {snap : PlaybackSnapshot} {nowMs : ℚ}
    {reports : List (String × ClientReport)} {d : DriftEntry} {rest : List DriftEntry}
    {report : ClientReport} (h : assocLookup d.socketId reports = some report)
    (hno : ¬ needsCorrection snap d report) :
    processDrifts code snap nowMs reports (d :: rest) =
      processDrifts code snap nowMs reports rest := by
  simp only [processDrifts, h, if_neg hno]

theorem processDrifts_cons_cool {code : String} {snap : PlaybackSnapshot} {nowMs : ℚ}
    {reports : List (String × ClientReport)} {d : DriftEntry} {rest : List DriftEntry}
    {report : ClientReport} (h : assocLookup d.socketId reports = some report)
    (hneeds : needsCorrection snap d report)
    (hcool : nowMs - report.lastCorrectedAtMs < CORRECT_COOLDOWN_MS) :
    processDrifts code snap nowMs reports (d :: rest) =
      processDrifts code snap nowMs reports rest := by
  simp only [processDrifts, h, if_pos hneeds, if_pos hcool]

theorem processDrifts_cons_emit {code : String} {snap : PlaybackSnapshot} {nowMs : ℚ}
    {reports : List (String × ClientReport)} {d : DriftEntry} {rest : List DriftEntry}
    {report : ClientReport} (h : assocLookup d.socketId reports = some report)
    (hneeds : needsCorrection snap d report)
    (hcool : ¬ nowMs - report.lastCorrectedAtMs < CORRECT_COOLDOWN_MS) :
    processDrifts code snap nowMs reports (d :: rest) =
      ((processDrifts code snap nowMs
          (mapSet reports d.socketId { report with lastCorrectedAtMs := nowMs }) rest).1,
        mkCorrectionMsg code snap d ::
          (processDrifts code snap nowMs
            (mapSet reports d.socketId { report with lastCorrectedAtMs := nowMs }) rest).2) := by
  simp only [processDrifts, h, if_pos hneeds, if_neg hcool]

/-- Every correction the loop emits is the canonical message for one of the
drift entries it walked. -/
theorem processDrifts_subset {code : String} {snap : PlaybackSnapshot} {nowMs : ℚ}
    (ds : List DriftEntry) :
    ∀ (reports : List (String × ClientReport)),
      ∀ c ∈ (processDrifts code snap nowMs reports ds).2,
        ∃ d ∈ ds, c = mkCorrectionMsg code snap d := by
  induction ds with
  | nil =>
      intro reports c hc
      simp [processDrifts] at hc
  | cons d rest ih =>
      intro reports c hc
      cases h : assocLookup d.socketId reports with
      | none =>
          rw [processDrifts_cons_none h] at hc
          obtain ⟨d2, hd2, hcd⟩ := ih reports c hc
          exact ⟨d2, List.mem_cons_of_mem _ hd2, hcd⟩
      | some report =>
          by_cases hneeds : needsCorrection snap d report
          · by_cases hcool : nowMs - report.lastCorrectedAtMs < CORRECT_COOLDOWN_MS
            · rw [processDrifts_cons_cool h hneeds hcool] at hc
              obtain ⟨d2, hd2, hcd⟩ := ih reports c hc
              exact ⟨d2, List.mem_cons_of_mem _ hd2, hcd⟩
            · rw [processDrifts_cons_emit h hneeds hcool] at hc
              rcases List.mem_cons.mp hc with hc | hc
              · exact ⟨d, List.mem_cons_self _ _, hc⟩
              · obtain ⟨d2, hd2, hcd⟩ := ih _ c hc
                exact ⟨d2, List.mem_cons_of_mem _ hd2, hcd⟩
          · rw [processDrifts_cons_skip h hneeds] at hc
            obtain ⟨d2, hd2, hcd⟩ := ih reports c hc
            exact ⟨d2, List.mem_cons_of_mem _ hd2, hcd⟩

/-- A member inside the cooldown window is never corrected by the loop and
its stored report is left untouched. -/
theorem processDrifts_cooldown {code : String} {snap : PlaybackSnapshot} {nowMs : ℚ}
    {sid : String} (ds : List DriftEntry) :
    ∀ (reports : List (String × ClientReport)) (rep : ClientReport),
      assocLookup sid reports = some rep →
      nowMs - rep.lastCorrectedAtMs < CORRECT_COOLDOWN_MS →
      (∀ c ∈ (processDrifts code snap nowMs reports ds).2, c.socketId ≠ sid) ∧
        assocLookup sid (processDrifts code snap nowMs reports ds).1 = some rep := by
  induction ds with
  | nil =>
      intro reports rep hrep hcool
      exact ⟨fun c hc => by simp [processDrifts] at hc, hrep⟩
  | cons d rest ih =>
      intro reports rep hrep hcool
      by_cases hds : d.socketId = sid
      · subst hds
        by_cases hneeds : needsCorrection snap d rep
        · rw [processDrifts_cons_cool hrep hneeds hcool]
          exact ih reports rep hrep hcool
        · rw [processDrifts_cons_skip hrep hneeds]
          exact ih reports rep hrep hcool
      · cases hlk : assocLookup d.socketId reports with
        | none =>
            rw [processDrifts_cons_none hlk]
            exact ih reports rep hrep hcool
        | some report =>
            by_cases hneeds : needsCorrection snap d report
            · by_cases hc2 : nowMs - report.lastCorrectedAtMs < CORRECT_COOLDOWN_MS
              · rw [processDrifts_cons_cool hlk hneeds hc2]
                exact ih reports rep hrep hcool
              · rw [processDrifts_cons_emit hlk hneeds hc2]
                have hrep1 : assocLookup sid
                    (mapSet reports d.socketId { report with lastCorrectedAtMs := nowMs }) =
                      some rep := by
                  rw [assocLookup_mapSet_ne _ _ _ _ (fun h => hds h.symm)]
                  exact hrep
                obtain ⟨hnone, hkeep⟩ := ih _ rep hrep1 hcool
                refine ⟨?_, hkeep⟩
                intro c hc
                rcases List.mem_cons.mp hc with hc | hc
                · rw [hc]
                  exact hds
                · exact hnone c hc
            · rw [processDrifts_cons_skip hlk hneeds]
              exact ih reports rep hrep hcool

/-- If the loop emits a correction for a member, that member's stored
`lastCorrectedAtMs` after the loop equals the tick time. -/
theorem processDrifts_emit_stamps {code : String} {snap : PlaybackSnapshot} {nowMs : ℚ}
    {sid : String} (ds : List DriftEntry) :
    ∀ (reports : List (String × ClientReport)),
      (∃ c ∈ (processDrifts code snap nowMs reports ds).2, c.socketId = sid) →
      ∃ rep2, assocLookup sid (processDrifts code snap nowMs reports ds).1 = some rep2 ∧
        rep2.lastCorrectedAtMs = nowMs := by
  induction ds with
  | nil =>
      rintro reports ⟨c, hc, _⟩
      simp [processDrifts] at hc
  | cons d rest ih =>
      rintro reports ⟨c, hc, hcs⟩
      cases hlk : assocLookup d.socketId reports with
      | none =>
          rw [processDrifts_cons_none hlk] at hc ⊢
          exact ih reports ⟨c, hc, hcs⟩
      | some report =>
          by_cases hneeds : needsCorrection snap d report
          · by_cases hc2 : nowMs - report.lastCorrectedAtMs < CORRECT_COOLDOWN_MS
            · rw [processDrifts_cons_cool hlk hneeds hc2] at hc ⊢
              exact ih reports ⟨c, hc, hcs⟩
            · rw [processDrifts_cons_emit hlk hneeds hc2] at hc ⊢
              rcases List.mem_cons.mp hc with hceq | hc
              · have hds : d.socketId = sid := by rw [hceq] at hcs; exact hcs
                subst hds
                have hrep1 : assocLookup d.socketId
                    (mapSet reports d.socketId { report with lastCorrectedAtMs := nowMs }) =
                      some { report with lastCorrectedAtMs := nowMs } :=
                  assocLookup_mapSet_self _ _ _
                have := @processDrifts_cooldown code snap nowMs d.socketId rest
                  (mapSet reports d.socketId { report with lastCorrectedAtMs := nowMs })
                  { report with lastCorrectedAtMs := nowMs } hrep1
                  (by rw [CORRECT_COOLDOWN_MS]; norm_num)
                exact ⟨_, this.2, rfl⟩
              · exact ih _ ⟨c, hc, hcs⟩
          · rw [processDrifts_cons_skip hlk hneeds] at hc ⊢
            exact ih reports ⟨c, hc, hcs⟩

/-- Characterization of which members receive a correction from the loop
(drift-entry socket ids assumed distinct, as they are for a JS `Set` of
sockets). -/
theorem processDrifts_mem {code : String} {snap : PlaybackSnapshot} {nowMs : ℚ}
    {sid : String} (ds : List DriftEntry) :
    ∀ (reports : List (String × ClientReport)),
      (ds.map DriftEntry.socketId).Nodup →
      ((∃ c ∈ (processDrifts code snap nowMs reports ds).2, c.socketId = sid) ↔
        ∃ d ∈ ds, d.socketId = sid ∧ ∃ rep, assocLookup sid reports = some rep ∧
          needsCorrection snap d rep ∧
          CORRECT_COOLDOWN_MS ≤ nowMs - rep.lastCorrectedAtMs) := by
  induction ds with
  | nil =>
      intro reports _
      constructor
      · rintro ⟨c, hc, _⟩
        simp [processDrifts] at hc
      · rintro ⟨d, hd, _⟩
        cases hd
  | cons d rest ih =>
      intro reports hnd
      have hnd2 : (rest.map DriftEntry.socketId).Nodup := (List.nodup_cons.mp hnd).2
      have hdnotin : d.socketId ∉ rest.map DriftEntry.socketId := (List.nodup_cons.mp hnd).1
      by_cases hds : d.socketId = sid
      · -- the head entry is the member in question; the tail cannot mention it
        have hrest : ∀ (reports2 : List (String × ClientReport)),
            ¬ ∃ c ∈ (processDrifts code snap nowMs reports2 rest).2, c.socketId = sid := by
          rintro reports2 ⟨c, hc, hcs⟩
          obtain ⟨d2, hd2, hcd⟩ := processDrifts_subset rest reports2 c hc
          apply hdnotin
          rw [hds]
          rw [hcd] at hcs
          have : d2.socketId = sid := hcs
          rw [← this]
          exact List.mem_map_of_mem _ hd2
        have hrestd : ∀ d2 ∈ rest, d2.socketId ≠ sid := by
          intro d2 hd2 hq
          apply hdnotin
          rw [hds, ← hq]
          exact List.mem_map_of_mem _ hd2
        cases hlk : assocLookup d.socketId reports with
        | none =>
            rw [processDrifts_cons_none hlk]
            constructor
            · intro h
              exact absurd h (hrest reports)
            · rintro ⟨d2, hd2, hd2s, rep, hrep, _⟩
              rcases List.mem_cons.mp hd2 with rfl | hd2
              · rw [hds, hrep] at hlk
                cases hlk
              · exact absurd hd2s (hrestd d2 hd2)
        | some report =>
            by_cases hneeds : needsCorrection snap d report
            · by_cases hc2 : nowMs - report.lastCorrectedAtMs < CORRECT_COOLDOWN_MS
              · rw [processDrifts_cons_cool hlk hneeds hc2]
                constructor
                · intro h
                  exact absurd h (hrest reports)
                · rintro ⟨d2, hd2, hd2s, rep, hrep, _, hcool⟩
                  rcases List.mem_cons.mp hd2 with rfl | hd2
                  · rw [hds, hrep] at hlk
                    injection hlk with hlk
                    subst hlk
                    exact absurd hc2 (not_lt.mpr hcool)
                  · exact absurd hd2s (hrestd d2 hd2)
              · rw [processDrifts_cons_emit hlk hneeds hc2]
                constructor
                · intro _
                  refine ⟨d, List.mem_cons_self _ _, hds, report, by rw [← hds]; exact hlk,
                    hneeds, not_lt.mp hc2⟩
                · intro _
                  exact ⟨mkCorrectionMsg code snap d, List.mem_cons_self _ _, hds⟩
            · rw [processDrifts_cons_skip hlk hneeds]
              constructor
              · intro h
                exact absurd h (hrest reports)
              · rintro ⟨d2, hd2, hd2s, rep, hrep, hneeds2, _⟩
                rcases List.mem_cons.mp hd2 with rfl | hd2
                · rw [hds, hrep] at hlk
                  injection hlk with hlk
                  subst hlk
                  exact absurd hneeds2 hneeds
                · exact absurd hd2s (hrestd d2 hd2)
      · -- the head entry concerns a different member
        have hhead : ∀ h : (mkCorrectionMsg code snap d).socketId = sid, False := fun h => hds h
        have htail : ∀ d2, d2 ∈ d :: rest → d2.socketId = sid → d2 ∈ rest := by
          intro d2 hd2 hd2s
          rcases List.mem_cons.mp hd2 with rfl | hd2
          · exact absurd hd2s hds
          · exact hd2
        cases hlk : assocLookup d.socketId reports with
        | none =>
            rw [processDrifts_cons_none hlk, ih reports hnd2]
            constructor
            · rintro ⟨d2, hd2, h⟩
              exact ⟨d2, List.mem_cons_of_mem _ hd2, h⟩
            · rintro ⟨d2, hd2, hd2s, h⟩
              exact ⟨d2, htail d2 hd2 hd2s, hd2s, h⟩
        | some report =>
            by_cases hneeds : needsCorrection snap d report
            · by_cases hc2 : nowMs - report.lastCorrectedAtMs < CORRECT_COOLDOWN_MS
              · rw [processDrifts_cons_cool hlk hneeds hc2, ih reports hnd2]
                constructor
                · rintro ⟨d2, hd2, h⟩
                  exact ⟨d2, List.mem_cons_of_mem _ hd2, h⟩
                · rintro ⟨d2, hd2, hd2s, h⟩
                  exact ⟨d2, htail d2 hd2 hd2s, hd2s, h⟩
              · rw [processDrifts_cons_emit hlk hneeds hc2]
                have hlk1 : assocLookup sid
                    (mapSet reports d.socketId { report with lastCorrectedAtMs := nowMs }) =
                      assocLookup sid reports :=
                  assocLookup_mapSet_ne _ _ _ _ (fun h => hds h.symm)
                constructor
                · rintro ⟨c, hc, hcs⟩
                  rcases List.mem_cons.mp hc with rfl | hc
                  · exact absurd hcs hds
                  · obtain ⟨d2, hd2, hd2s, rep, hrep, h⟩ := (ih _ hnd2).mp ⟨c, hc, hcs⟩
                    rw [hlk1] at hrep
                    exact ⟨d2, List.mem_cons_of_mem _ hd2, hd2s, rep, hrep, h⟩
                · rintro ⟨d2, hd2, hd2s, rep, hrep, h⟩
                  obtain ⟨c, hc, hcs⟩ := (ih _ hnd2).mpr
                    ⟨d2, htail d2 hd2 hd2s, hd2s, rep, by rw [hlk1]; exact hrep, h⟩
                  exact ⟨c, List.mem_cons_of_mem _ hc, hcs⟩
            · rw [processDrifts_cons_skip hlk hneeds, ih reports hnd2]
              constructor
              · rintro ⟨d2, hd2, h⟩
                exact ⟨d2, List.mem_cons_of_mem _ hd2, h⟩
              · rintro ⟨d2, hd2, hd2s, h⟩
                exact ⟨d2, htail d2 hd2 hd2s, hd2s, h⟩

theorem roomTick_allFresh_false {room : Room} {nowMs : ℚ}
    (h : (getRoomSyncStatus room nowMs).allHaveFreshReports = false) :
    roomTick room nowMs = (room, []) := by
  simp [roomTick, h]

theorem roomTick_allFresh_true {room : Room} {nowMs : ℚ}
    (h : (getRoomSyncStatus room nowMs).allHaveFreshReports = true) :
    roomTick room nowMs =
      ({ room with
          reports := (processDrifts room.code (getRoomSyncStatus room nowMs).snapshot nowMs
            room.reports (getRoomSyncStatus room nowMs).drifts).1 },
        (processDrifts room.code (getRoomSyncStatus room nowMs).snapshot nowMs
          room.reports (getRoomSyncStatus room nowMs).drifts).2) := by
  simp [roomTick, h]

theorem map_socketId_filterMap_sublist (f : String → Option DriftEntry)
    (hf : ∀ sid d, f sid = some d → d.socketId = sid) (l : List String) :
    ((l.filterMap f).map DriftEntry.socketId).Sublist l := by
  induction l with
  | nil => simp
  | cons a rest ih =>
      cases h : f a with
      | none =>
          rw [List.filterMap_cons, h]
          exact ih.cons a
      | some d =>
          rw [List.filterMap_cons, h, List.map_cons, hf a d h]
          exact ih.cons₂ a

theorem drifts_ids_nodup (room : Room) (nowMs : ℚ) (hn : room.sockets.Nodup) :
    ((getRoomSyncStatus room nowMs).drifts.map DriftEntry.socketId).Nodup := by
  rw [getRoomSyncStatus_drifts]
  refine (map_socketId_filterMap_sublist _ ?_ room.sockets).nodup hn
  intro sid d h
  obtain ⟨rep, _, hd⟩ := Option.map_eq_some'.mp h
  rw [← hd]
  rfl

/-- Claim C3: on a scheduler tick, a targeted `playback:correct` message is
sent to a member iff every current member has a fresh report (age at most
4000 ms), the member's own |drift| exceeds 0.25 s or its reported
`isPlaying` differs from the authoritative one or its reported rate differs
from the authoritative rate by more than 0.001, and at least the 800 ms
cooldown has elapsed since the member's `lastCorrectedAtMs`; each emitted
correction carries `targetTimeSeconds` equal to the authoritative snapshot
position (and the authoritative play flag and rate), and mode `hard` iff the
member's |drift| is at least 2.0 s. -/
theorem claim_C3_correction_conditions (room : Room) (nowMs : ℚ) (sid : String)
    (hn : room.sockets.Nodup) :
    ((∃ c ∈ (roomTick room nowMs).2, c.socketId = sid) ↔
      ((getRoomSyncStatus room nowMs).allHaveFreshReports = true ∧ sid ∈ room.sockets ∧
        ∃ rep, assocLookup sid room.reports = some rep ∧
          nowMs - rep.receivedAtMs ≤ REPORT_STALE_MS ∧
          (|computeClientPositionAtNow rep nowMs -
              (getRoomSyncStatus room nowMs).snapshot.positionSeconds| >
                SYNC_TOLERANCE_SECONDS ∨
            rep.isPlaying ≠ (getRoomSyncStatus room nowMs).snapshot.isPlaying ∨
            |rep.playbackRate - (getRoomSyncStatus room nowMs).snapshot.playbackRate| >
              1/1000) ∧
          CORRECT_COOLDOWN_MS ≤ nowMs - rep.lastCorrectedAtMs)) ∧
    (∀ c ∈ (roomTick room nowMs).2,
      c.targetTimeSeconds = (getRoomSyncStatus room nowMs).snapshot.positionSeconds ∧
      c.playbackRate = (getRoomSyncStatus room nowMs).snapshot.playbackRate ∧
      c.isPlaying = (getRoomSyncStatus room nowMs).snapshot.isPlaying ∧
      ∃ rep, assocLookup c.socketId room.reports = some rep ∧
        (c.mode = CorrectionMode.hard ↔
          HARD_SEEK_THRESHOLD_SECONDS ≤
            |computeClientPositionAtNow rep nowMs -
              (getRoomSyncStatus room nowMs).snapshot.positionSeconds|)) := by
  cases hf : (getRoomSyncStatus room nowMs).allHaveFreshReports with
  | false =>
      rw [roomTick_allFresh_false hf]
      constructor
      · constructor
        · rintro ⟨c, hc, _⟩
          cases hc
        · rintro ⟨hfr, _⟩
          cases hfr
      · rintro c hc
        cases hc
  | true =>
      rw [roomTick_allFresh_true hf]
      constructor
      · rw [processDrifts_mem _ room.reports (drifts_ids_nodup room nowMs hn)]
        constructor
        · rintro ⟨d, hd, hdsid, rep, hrep, hneeds, hcool⟩
          obtain ⟨sid2, hsid2, rep2, hf2, hd2⟩ := (mem_drifts_iff room nowMs d).mp hd
          have hsid2eq : sid2 = sid := by rw [← hdsid, hd2]; rfl
          subst hsid2eq
          obtain ⟨hrep2, hage2⟩ := freshEntry_eq_some.mp hf2
          have hr : rep2 = rep := by
            rw [hrep2] at hrep
            exact Option.some.inj hrep
          refine ⟨rfl, hsid2, rep, hrep, by rw [← hr]; exact hage2, ?_, hcool⟩
          have habs : d.abs = |computeClientPositionAtNow rep nowMs -
              (getRoomSyncStatus room nowMs).snapshot.positionSeconds| := by
            rw [hd2, hr, getRoomSyncStatus_snapshot]
            rfl
          unfold needsCorrection at hneeds
          rw [habs] at hneeds
          exact hneeds
        · rintro ⟨_, hsid, rep, hrep, hage, hcond, hcool⟩
          refine ⟨mkDriftEntry (getPlaybackSnapshot room nowMs).positionSeconds nowMs sid rep,
            (mem_drifts_iff room nowMs _).mpr
              ⟨sid, hsid, rep, freshEntry_eq_some.mpr ⟨hrep, hage⟩, rfl⟩,
            rfl, rep, hrep, ?_, hcool⟩
          unfold needsCorrection
          rw [getRoomSyncStatus_snapshot] at hcond
          exact hcond
      · intro c hc
        obtain ⟨d, hd, hcd⟩ := processDrifts_subset _ room.reports c hc
        obtain ⟨sid2, _, rep2, hf2, hd2⟩ := (mem_drifts_iff room nowMs d).mp hd
        obtain ⟨hrep2, _⟩ := freshEntry_eq_some.mp hf2
        have hcsid : c.socketId = sid2 := by rw [hcd, hd2]; rfl
        have habs : d.abs = |computeClientPositionAtNow rep2 nowMs -
            (getRoomSyncStatus room nowMs).snapshot.positionSeconds| := by
          rw [hd2, getRoomSyncStatus_snapshot]
          rfl
        refine ⟨by rw [hcd]; rfl, by rw [hcd]; rfl, by rw [hcd]; rfl,
          rep2, by rw [hcsid]; exact hrep2, ?_⟩
        rw [← habs, hcd]
        show (if d.abs ≥ HARD_SEEK_THRESHOLD_SECONDS then CorrectionMode.hard
          else CorrectionMode.soft) = CorrectionMode.hard ↔
            HARD_SEEK_THRESHOLD_SECONDS ≤ d.abs
        by_cases hge : d.abs ≥ HARD_SEEK_THRESHOLD_SECONDS
        · rw [if_pos hge]
          exact ⟨fun _ => hge, fun _ => rfl⟩
        · rw [if_neg hge]
          constructor
          · intro h
            cases h
          · intro h
            exact absurd h hge

theorem applyPlaybackAction_reports (room : Room) (nowMs : ℚ) (a : PlaybackAction) :
    (applyPlaybackAction room nowMs a).reports = room.reports := rfl

/-- No correction reaches a member while every tick in a trace happens
strictly inside that member's cooldown window, and the member's stamped
`lastCorrectedAtMs` survives the whole trace. -/
theorem runEvents_no_correction {sid : String} {t0 : ℚ} (events : List ServerEvent) :
    ∀ (room : Room) (rep : ClientReport),
      assocLookup sid room.reports = some rep →
      rep.lastCorrectedAtMs = t0 →
      (∀ e ∈ events, ∀ nowMs : ℚ, e = ServerEvent.tick nowMs →
        nowMs < t0 + CORRECT_COOLDOWN_MS) →
      (∀ c ∈ (runEvents room events).2, c.socketId ≠ sid) ∧
        ∃ rep2, assocLookup sid (runEvents room events).1.reports = some rep2 ∧
          rep2.lastCorrectedAtMs = t0 := by
  induction events with
  | nil =>
      intro room rep hrep hstamp _
      constructor
      · intro c hc
        cases hc
      · exact ⟨rep, hrep, hstamp⟩
  | cons e rest ih =>
      intro room rep hrep hstamp hticks
      have hticksRest : ∀ e2 ∈ rest, ∀ nowMs : ℚ, e2 = ServerEvent.tick nowMs →
          nowMs < t0 + CORRECT_COOLDOWN_MS :=
        fun e2 he2 nowMs heq => hticks e2 (List.mem_cons_of_mem _ he2) nowMs heq
      cases e with
      | tick nowMs =>
          have hlt : nowMs < t0 + CORRECT_COOLDOWN_MS :=
            hticks _ (List.mem_cons_self _ _) nowMs rfl
          cases hf : (getRoomSyncStatus room nowMs).allHaveFreshReports with
          | false =>
              have hstep : stepEvent room (ServerEvent.tick nowMs) = (room, []) :=
                roomTick_allFresh_false hf
              simp only [runEvents, hstep]
              obtain ⟨h1, h2⟩ := ih room rep hrep hstamp hticksRest
              exact ⟨fun c hc => h1 c (by simpa using hc), h2⟩
          | true =>
              have hstep : stepEvent room (ServerEvent.tick nowMs) =
                  ({ room with
                      reports := (processDrifts room.code
                        (getRoomSyncStatus room nowMs).snapshot nowMs
                        room.reports (getRoomSyncStatus room nowMs).drifts).1 },
                    (processDrifts room.code (getRoomSyncStatus room nowMs).snapshot nowMs
                      room.reports (getRoomSyncStatus room nowMs).drifts).2) :=
                roomTick_allFresh_true hf
              obtain ⟨hno, hkeep⟩ := @processDrifts_cooldown
                room.code ((getRoomSyncStatus room nowMs).snapshot) nowMs sid
                (getRoomSyncStatus room nowMs).drifts room.reports rep hrep
                (by rw [hstamp]; linarith)
              obtain ⟨h1, h2⟩ := ih
                { room with
                    reports := (processDrifts room.code
                      (getRoomSyncStatus room nowMs).snapshot nowMs
                      room.reports (getRoomSyncStatus room nowMs).drifts).1 }
                rep hkeep hstamp hticksRest
              simp only [runEvents, hstep]
              refine ⟨?_, h2⟩
              intro c hc
              rcases List.mem_append.mp hc with hc | hc
              · exact hno c hc
              · exact h1 c hc
      | report sid2 timeSeconds isPlaying playbackRate nowMs =>
          simp only [runEvents, stepEvent]
          by_cases hmem : sid2 ∈ room.sockets
          · by_cases hsid2 : sid2 = sid
            · subst hsid2
              have hnew : assocLookup sid2
                  (handleReport room sid2 timeSeconds isPlaying playbackRate nowMs).reports =
                    some { timeSeconds := max 0 timeSeconds
                           isPlaying := isPlaying
                           playbackRate := min 2 (max (1/2) playbackRate)
                           receivedAtMs := nowMs
                           lastCorrectedAtMs := rep.lastCorrectedAtMs } := by
                simp only [handleReport, if_pos hmem, hrep]
                exact assocLookup_mapSet_self _ _ _
              obtain ⟨h1, h2⟩ := ih _ _ hnew hstamp hticksRest
              exact ⟨fun c hc => h1 c (by simpa using hc), h2⟩
            · have hkeep : assocLookup sid
                  (handleReport room sid2 timeSeconds isPlaying playbackRate nowMs).reports =
                    some rep := by
                simp only [handleReport, if_pos hmem]
                rw [assocLookup_mapSet_ne _ _ _ _ (fun h => hsid2 h.symm)]
                exact hrep
              obtain ⟨h1, h2⟩ := ih _ _ hkeep hstamp hticksRest
              exact ⟨fun c hc => h1 c (by simpa using hc), h2⟩
          · have hkeep : assocLookup sid
                (handleReport room sid2 timeSeconds isPlaying playbackRate nowMs).reports =
                  some rep := by
              simp only [handleReport, if_neg hmem]
              exact hrep
            obtain ⟨h1, h2⟩ := ih _ _ hkeep hstamp hticksRest
            exact ⟨fun c hc => h1 c (by simpa using hc), h2⟩
      | action sid2 a nowMs =>
          simp only [runEvents, stepEvent]
          by_cases hmem : sid2 ∈ room.sockets
          · have hkeep : assocLookup sid
                (applyPlaybackAction room nowMs a).reports = some rep := by
              rw [applyPlaybackAction_reports]
              exact hrep
            obtain ⟨h1, h2⟩ := ih _ _ hkeep hstamp hticksRest
            rw [if_pos hmem]
            exact ⟨fun c hc => h1 c (by simpa using hc), h2⟩
          · obtain ⟨h1, h2⟩ := ih _ _ hrep hstamp hticksRest
            rw [if_neg hmem]
            exact ⟨fun c hc => h1 c (by simpa using hc), h2⟩

/-- Claim C4: when a tick at time `t0` issues a correction to a member, the
member's `lastCorrectedAtMs` is stamped to `t0`, and along any subsequent
trace of server events whose ticks all happen before `t0 + 800` ms no
further correction is sent to that member — even if the drift or the
play/rate mismatch persists across those ticks. -/
theorem claim_C4_cooldown_window (room : Room) (t0 : ℚ) (sid : String)
    (events : List ServerEvent)
    (h1 : ∃ c ∈ (roomTick room t0).2, c.socketId = sid)
    (h2 : ∀ e ∈ events, ∀ nowMs : ℚ, e = ServerEvent.tick nowMs →
      nowMs < t0 + CORRECT_COOLDOWN_MS) :
    (∃ rep, assocLookup sid (roomTick room t0).1.reports = some rep ∧
      rep.lastCorrectedAtMs = t0) ∧
    ∀ c ∈ (runEvents (roomTick room t0).1 events).2, c.socketId ≠ sid := by
  cases hf : (getRoomSyncStatus room t0).allHaveFreshReports with
  | false =>
      rw [roomTick_allFresh_false hf] at h1
      obtain ⟨c, hc, _⟩ := h1
      cases hc
  | true =>
      rw [roomTick_allFresh_true hf] at h1 ⊢
      obtain ⟨rep2, hrep2, hstamp2⟩ := processDrifts_emit_stamps _ room.reports h1
      obtain ⟨hno, _⟩ := runEvents_no_correction events
        { room with
            reports := (processDrifts room.code
              (getRoomSyncStatus room t0).snapshot t0
              room.reports (getRoomSyncStatus room t0).drifts).1 }
        rep2 hrep2 hstamp2 h2
      exact ⟨⟨rep2, hrep2, hstamp2⟩, hno⟩

theorem wRoom_allFresh : (getRoomSyncStatus wRoom 10000).allHaveFreshReports = true := by
  rw [getRoomSyncStatus_allFresh]
  norm_num +decide [freshEntry, assocLookup, wRoom, wReportA, wReportB, REPORT_STALE_MS]

theorem wRoom_snapshot_pos :
    (getRoomSyncStatus wRoom 10000).snapshot.positionSeconds = 10 := by
  rw [getRoomSyncStatus_snapshot]
  norm_num [getPlaybackSnapshot, wRoom]

/-- Witness for C3: in the concrete room, the drifting member B satisfies the
conditions, so the tick sends it a correction. -/
theorem claim_C3_correction_conditions_witness :
    ∃ c ∈ (roomTick wRoom 10000).2, c.socketId = "B" :=
  (claim_C3_correction_conditions wRoom 10000 "B" (by decide)).1.mpr
    ⟨wRoom_allFresh, by decide, wReportB, rfl,
      by norm_num [wReportB, REPORT_STALE_MS],
      Or.inl (by
        rw [wRoom_snapshot_pos]
        norm_num [computeClientPositionAtNow, wReportB, SYNC_TOLERANCE_SECONDS]),
      by norm_num [wReportB, CORRECT_COOLDOWN_MS]⟩

/-- Witness for C4: B is corrected at tick time 10000; at a tick 500 ms later
(inside the 800 ms cooldown) no correction is sent to B although its drift
persists. -/
theorem claim_C4_cooldown_window_witness :
    (∃ rep, assocLookup "B" (roomTick wRoom 10000).1.reports = some rep ∧
      rep.lastCorrectedAtMs = 10000) ∧
    ∀ c ∈ (runEvents (roomTick wRoom 10000).1 [ServerEvent.tick 10500]).2,
      c.socketId ≠ "B" := by
  refine claim_C4_cooldown_window wRoom 10000 "B" [ServerEvent.tick 10500] ?_ ?_
  · rw [roomTick_allFresh_true wRoom_allFresh]
    refine (processDrifts_mem _ wRoom.reports (drifts_ids_nodup wRoom 10000 (by decide))).mpr
      ⟨mkDriftEntry (getPlaybackSnapshot wRoom 10000).positionSeconds 10000 "B" wReportB,
        (mem_drifts_iff wRoom 10000 _).mpr
          ⟨"B", by decide, wReportB, freshEntry_eq_some.mpr
            ⟨rfl, by norm_num [wReportB, REPORT_STALE_MS]⟩, rfl⟩,
        rfl, wReportB, rfl, ?_, by norm_num [wReportB, CORRECT_COOLDOWN_MS]⟩
    refine Or.inl ?_
    show |computeClientPositionAtNow wReportB 10000 -
      (getPlaybackSnapshot wRoom 10000).positionSeconds| > SYNC_TOLERANCE_SECONDS
    norm_num [computeClientPositionAtNow, wReportB, getPlaybackSnapshot, wRoom,
      SYNC_TOLERANCE_SECONDS]
  · intro e he nowMs heq
    rw [List.mem_singleton] at he
    subst he
    injection heq with h
    rw [← h, CORRECT_COOLDOWN_MS]
    norm_num

/-- Witness for C6: the fully synced one-member room reports `isSynced`. -/
theorem claim_C6_sync_indicator_witness :
    (getRoomSyncStatus wRoomSynced 10000).isSynced = true :=
  (claim_C6_sync_indicator wRoomSynced 10000).1.mpr (by
    intro sid hsid
    have hs : sid = "A" := by
      have : sid ∈ ["A"] := hsid
      simpa using this
    subst hs
    refine ⟨wReportA, rfl, by norm_num [wReportA, REPORT_STALE_MS], ?_⟩
    rw [getRoomSyncStatus_snapshot]
    norm_num [computeClientPositionAtNow, wReportA, getPlaybackSnapshot, wRoomSynced,
      SYNC_TOLERANCE_SECONDS])

/-- Claim C5: an incoming authoritative state whose `seq` is at most the
reconciler's `lastAppliedSeq` is discarded: the handler returns with the
whole client state — media element, pending-state buffer and
`lastAppliedSeq` — unchanged; `lastAppliedSeq` starts at `-1`, strictly
below every valid (non-negative) `seq`. -/
theorem claim_C5_stale_discard :
    (∀ (cs : ClientState) (nowMs : ℚ) (playOk : Bool) (state : PlaybackMsg),
      state.seq ≤ cs.lastSeqApplied →
      applyPlaybackStateToVideo cs nowMs playOk state = cs) ∧
    initialClientState.lastSeqApplied = -1 ∧
    (∀ s : ℤ, 0 ≤ s → initialClientState.lastSeqApplied < s) := by
  refine ⟨?_, rfl, ?_⟩
  · intro cs nowMs playOk state h
    unfold applyPlaybackStateToVideo
    cases hv : cs.video with
    | none => rfl
    | some video => exact if_pos h
  · intro s hs
    show (-1 : ℤ) < s
    omega

/-- Witness for C5: the stale message leaves the concrete state untouched. -/
theorem claim_C5_stale_discard_witness :
    applyPlaybackStateToVideo wClientState 0 true wStaleMsg = wClientState :=
  claim_C5_stale_discard.1 wClientState 0 true wStaleMsg (by decide)

theorem resolvePlayPause_video (cs : ClientState) (video : VideoState)
    (b : PlaybackMsg) (p ok : Bool) :
    ∃ v2, (resolvePlayPause cs video b p ok).video = some v2 ∧
      v2.currentTime = video.currentTime ∧ v2.playbackRate = video.playbackRate := by
  unfold resolvePlayPause
  split_ifs <;> exact ⟨_, rfl, rfl, rfl⟩

theorem resolvePlayPause_timer (cs : ClientState) (video : VideoState)
    (b : PlaybackMsg) (p ok : Bool) :
    (resolvePlayPause cs video b p ok).correctionTimerDelayMs =
      cs.correctionTimerDelayMs := by
  unfold resolvePlayPause
  split_ifs <;> rfl

theorem resolvePlayPause_base (cs : ClientState) (video : VideoState)
    (b : PlaybackMsg) (p ok : Bool) :
    (resolvePlayPause cs video b p ok).basePlaybackRate = cs.basePlaybackRate := by
  unfold resolvePlayPause
  split_ifs <;> rfl

/-- Closed form of the soft branch of the `playback:correct` handler. -/
theorem handlePlaybackCorrect_soft_eq (cs : ClientState) (video : VideoState)
    (roomCode : String) (nowMs : ℚ) (playOk : Bool) (payload : CorrectionPayload)
    (hv : cs.video = some video)
    (hcode : normalizeCode payload.code = roomCode)
    (hmode : payload.mode = CorrectionMode.soft)
    (hsmall : |correctionDrift nowMs payload video| < 2) :
    handlePlaybackCorrect cs roomCode nowMs playOk payload =
      resolvePlayPause
        { cs with
          applyingRemote := true
          suppressEmitsUntil := max cs.suppressEmitsUntil (nowMs + 900)
          basePlaybackRate := payload.playbackRate
          playbackRateUi := payload.playbackRate
          correctionTimerDelayMs := some 1200 }
        { (if |correctionDrift nowMs payload video| > 3/4 then
            { video with
              currentTime := max 0 (video.currentTime +
                max (-(1/2)) (min (1/2) (correctionDrift nowMs payload video * (1/2)))) }
          else video) with
          playbackRate := max (1/2) (min 2 (payload.playbackRate +
            max (-(7/20)) (min (7/20) (correctionDrift nowMs payload video * (1/4))))) }
        { isPlaying := payload.isPlaying
          positionSeconds := payload.targetTimeSeconds
          playbackRate := payload.playbackRate
          seq := payload.seq
          serverTimeMs := payload.serverTimeMs }
        payload.isPlaying playOk := by
  unfold handlePlaybackCorrect
  rw [if_neg (fun h => h hcode), hv]
  show (if payload.mode = CorrectionMode.hard ∨ |correctionDrift nowMs payload video| ≥ 2
    then _ else _) = _
  rw [if_neg ?hcond]
  case hcond =>
    rintro (h | h)
    · rw [hmode] at h
      cases h
    · exact absurd h (not_le.mpr hsmall)
  rfl

/-- Claim C7 (amended): on a soft `playback:correct`, with drift measured as
the projected authoritative target position minus the member's local
position (`target - local`, the opposite orientation from the claim), and
provided the locally measured `|drift| < 2.0` s (otherwise the client
escalates to a hard seek): when `|drift| > 0.75` s the client seeks by a
nonzero bounded step of magnitude at most 0.5 s in the direction of the
target, never landing exactly on the target; it sets the element's rate to
the authoritative rate plus `clamp(drift * 0.25, -0.35, 0.35)`, the sum
clamped to `[0.5, 2.0]`; it arms a 1200 ms timer whose firing reverts the
rate to the authoritative base rate. -/
theorem claim_C7_soft_correction (cs : ClientState) (video : VideoState)
    (roomCode : String) (nowMs : ℚ) (playOk : Bool) (payload : CorrectionPayload)
    (hv : cs.video = some video)
    (hcode : normalizeCode payload.code = roomCode)
    (hmode : payload.mode = CorrectionMode.soft)
    (hsmall : |correctionDrift nowMs payload video| < 2)
    (htgt : 0 ≤ payload.targetTimeSeconds)
    (hrate : 0 ≤ payload.playbackRate)
    (hvct : 0 ≤ video.currentTime) :
    ∃ v2, (handlePlaybackCorrect cs roomCode nowMs playOk payload).video = some v2 ∧
      v2.playbackRate = max (1/2) (min 2 (payload.playbackRate +
        max (-(7/20)) (min (7/20) (correctionDrift nowMs payload video * (1/4))))) ∧
      (|correctionDrift nowMs payload video| > 3/4 →
        ∃ δ : ℚ, δ ≠ 0 ∧ |δ| ≤ 1/2 ∧ 0 ≤ δ * correctionDrift nowMs payload video ∧
          v2.currentTime = max 0 (video.currentTime + δ) ∧
          v2.currentTime ≠ video.currentTime + correctionDrift nowMs payload video) ∧
      (¬ |correctionDrift nowMs payload video| > 3/4 →
        v2.currentTime = video.currentTime) ∧
      (handlePlaybackCorrect cs roomCode nowMs playOk payload).correctionTimerDelayMs =
        some 1200 ∧
      (handlePlaybackCorrect cs roomCode nowMs playOk payload).basePlaybackRate =
        payload.playbackRate ∧
      ∃ v3, (fireCorrectionTimer
          (handlePlaybackCorrect cs roomCode nowMs playOk payload)).video = some v3 ∧
        v3.playbackRate = payload.playbackRate := by
  rw [handlePlaybackCorrect_soft_eq cs video roomCode nowMs playOk payload hv hcode
    hmode hsmall]
  set drift := correctionDrift nowMs payload video with hdrift
  have htarget : 0 ≤ video.currentTime + drift := by
    have hage : (0:ℚ) ≤ max 0 ((nowMs - payload.serverTimeMs) / 1000) := le_max_left _ _
    rw [hdrift]
    unfold correctionDrift computeTargetTimeSeconds
    cases hp : payload.isPlaying
    · simp only [hp]
      simp
      linarith [htgt]
    · simp only [hp]
      simp
      nlinarith [mul_nonneg hage hrate, htgt]
  obtain ⟨v2, hv2, hct, hrate2⟩ := resolvePlayPause_video _ _ _ payload.isPlaying playOk
  refine ⟨v2, hv2, ?_, ?_, ?_, ?_, ?_, ?_⟩
  · rw [hrate2]
  · intro hbig
    set δ := max (-(1/2)) (min (1/2) (drift * (1/2))) with hdel
    have hv2ct : v2.currentTime = max 0 (video.currentTime + δ) := by
      rw [hct, if_pos hbig]
    rcases lt_or_le drift 0 with hneg | hpos
    · have hlt : drift < -(3/4) := by
        rw [abs_of_neg hneg] at hbig
        linarith
      have hd2 : drift * (1/2) ≤ -(3/8) := by linarith
      have hmin : min (1/2) (drift * (1/2)) = drift * (1/2) :=
        min_eq_right (by linarith)
      have hdlo : -(1/2) ≤ δ := le_max_left _ _
      have hdhi : δ ≤ -(3/8) := by
        rw [hdel, hmin]
        exact max_le (by norm_num) hd2
      have hdneg : δ < 0 := lt_of_le_of_lt hdhi (by norm_num)
      have hpos2 : 0 < video.currentTime + δ := by linarith [htarget]
      refine ⟨δ, ne_of_lt hdneg, ?_, ?_, hv2ct, ?_⟩
      · rw [abs_le]
        exact ⟨hdlo, by linarith⟩
      · have h1 : 0 < (-δ) * (-drift) := mul_pos (by linarith) (by linarith)
        nlinarith
      · rw [hv2ct, max_eq_right (le_of_lt hpos2)]
        intro heq
        have hq : δ = drift := by linarith
        linarith
    · have hgt : 3/4 < drift := by
        rw [abs_of_nonneg hpos] at hbig
        exact hbig
      have hd2 : 3/8 ≤ drift * (1/2) := by linarith
      have hdeq : δ = min (1/2) (drift * (1/2)) := by
        rw [hdel]
        exact max_eq_right (le_min (by norm_num) (by linarith))
      have hdpos : 0 < δ := by
        rw [hdeq]
        exact lt_min (by norm_num) (by linarith)
      have hdhi : δ ≤ 1/2 := by
        rw [hdeq]
        exact min_le_left _ _
      have hpos2 : 0 < video.currentTime + δ := by linarith
      refine ⟨δ, ne_of_gt hdpos, ?_, ?_, hv2ct, ?_⟩
      · rw [abs_le]
        exact ⟨by linarith, hdhi⟩
      · exact le_of_lt (mul_pos hdpos (by linarith))
      · rw [hv2ct, max_eq_right (le_of_lt hpos2)]
        intro heq
        have hq : δ = drift := by linarith
        linarith
  · intro hsmall2
    rw [hct, if_neg hsmall2]
  · rw [resolvePlayPause_timer]
  · rw [resolvePlayPause_base]
  · refine ⟨{ v2 with playbackRate := payload.playbackRate }, ?_, rfl⟩
    simp only [fireCorrectionTimer, resolvePlayPause_timer, resolvePlayPause_base, hv2]

/-- Counterexample for C7 as stated: the projected target is 1 and the local
position 0, so the claim's drift (`local - target`) is `0 - 1 = -1` and the
claim predicts a rate of `clamp(1 + clamp(-1 * 0.25, -0.35, 0.35), 0.5, 2)
= 0.75`; the code instead computes the nudge from `target - local = 1` and
sets the rate to `1.25`. -/
theorem claim_C7_counterexample :
    computeTargetTimeSeconds 10000
      { isPlaying := cPayload.isPlaying
        positionSeconds := cPayload.targetTimeSeconds
        playbackRate := cPayload.playbackRate
        seq := cPayload.seq
        serverTimeMs := cPayload.serverTimeMs } = 1 ∧
    cVideo.currentTime = 0 ∧
    (handlePlaybackCorrect cClientState "AB23CD" 10000 true cPayload).video.map
      VideoState.playbackRate = some (5/4) ∧
    (5/4 : ℚ) ≠ min 2 (max (1/2) (1 + max (-(7/20)) (min (7/20) ((0 - 1) * (1/4))))) := by
  refine ⟨by norm_num [computeTargetTimeSeconds, cPayload], rfl, ?_, by norm_num⟩
  rw [handlePlaybackCorrect_soft_eq cClientState cVideo "AB23CD" 10000 true cPayload rfl
    (by decide) rfl (by norm_num [correctionDrift, computeTargetTimeSeconds, cPayload, cVideo])]
  norm_num [resolvePlayPause, correctionDrift, computeTargetTimeSeconds, cPayload, cVideo]

/-- Witness for the amended C7: the concrete soft correction applied to the
parked element (drift 1) makes a 0.5 s partial seek, sets the rate to 1.25,
and the 1200 ms timer restores the authoritative rate 1. -/
theorem claim_C7_soft_correction_witness :
    ∃ v2, (handlePlaybackCorrect cClientState "AB23CD" 10000 true cPayload).video = some v2 ∧
      v2.playbackRate = max (1/2) (min 2 (cPayload.playbackRate +
        max (-(7/20)) (min (7/20) (correctionDrift 10000 cPayload cVideo * (1/4))))) ∧
      (|correctionDrift 10000 cPayload cVideo| > 3/4 →
        ∃ δ : ℚ, δ ≠ 0 ∧ |δ| ≤ 1/2 ∧ 0 ≤ δ * correctionDrift 10000 cPayload cVideo ∧
          v2.currentTime = max 0 (cVideo.currentTime + δ) ∧
          v2.currentTime ≠ cVideo.currentTime + correctionDrift 10000 cPayload cVideo) ∧
      (¬ |correctionDrift 10000 cPayload cVideo| > 3/4 →
        v2.currentTime = cVideo.currentTime) ∧
      (handlePlaybackCorrect cClientState "AB23CD" 10000 true cPayload).correctionTimerDelayMs =
        some 1200 ∧
      (handlePlaybackCorrect cClientState "AB23CD" 10000 true cPayload).basePlaybackRate =
        cPayload.playbackRate ∧
      ∃ v3, (fireCorrectionTimer
          (handlePlaybackCorrect cClientState "AB23CD" 10000 true cPayload)).video = some v3 ∧
        v3.playbackRate = cPayload.playbackRate :=
  claim_C7_soft_correction cClientState cVideo "AB23CD" 10000 true cPayload rfl
    (by decide) rfl
    (by norm_num [correctionDrift, computeTargetTimeSeconds, cPayload, cVideo])
    (by norm_num [cPayload])
    (by norm_num [cPayload])
    (by norm_num [cVideo])

theorem mem_mapSet {β : Type} (l : List (String × β)) (k : String) (v : β)
    (p : String × β) (hp : p ∈ mapSet l k v) : p ∈ l ∨ p = (k, v) := by
  induction l with
  | nil =>
      simp only [mapSet, List.mem_singleton] at hp
      right
      rw [hp]
  | cons q rest ih =>
      by_cases hq : q.1 = k
      · simp only [mapSet] at hp
        rw [if_pos (by simpa using hq)] at hp
        rcases List.mem_cons.mp hp with hp | hp
        · right
          rw [hp, hq]
        · left
          exact List.mem_cons_of_mem _ hp
      · simp only [mapSet] at hp
        rw [if_neg (by simpa using hq)] at hp
        rcases List.mem_cons.mp hp with hp | hp
        · left
          rw [hp]
          exact List.mem_cons_self _ _
        · rcases ih hp with hp | hp
          · exact Or.inl (List.mem_cons_of_mem _ hp)
          · exact Or.inr hp

theorem assocLookup_mem {β : Type} : ∀ {l : List (String × β)} {k : String} {v : β},
    assocLookup k l = some v → (k, v) ∈ l := by
  intro l
  induction l with
  | nil => intro k v h; cases h
  | cons q rest ih =>
      intro k v h
      obtain ⟨k0, v0⟩ := q
      by_cases hk : k = k0
      · simp only [assocLookup, if_pos hk] at h
        injection h with h
        rw [hk, h]
        exact List.mem_cons_self _ _
      · simp only [assocLookup, if_neg hk] at h
        exact List.mem_cons_of_mem _ (ih h)

theorem addSocket_ne_nil (l : List String) (sid : String) : addSocket l sid ≠ [] := by
  unfold addSocket
  by_cases h : sid ∈ l
  · rw [if_pos h]
    exact List.ne_nil_of_mem h
  · rw [if_neg h]
    simp

theorem mem_addSocket_of_mem {l : List String} {a : String} (sid : String) (h : a ∈ l) :
    a ∈ addSocket l sid := by
  unfold addSocket
  by_cases hm : sid ∈ l
  · rw [if_pos hm]
    exact h
  · rw [if_neg hm]
    exact List.mem_append_left _ h

theorem disconnectSocket_cons_skip {sid code : String} {room : Room}
    {rest : List (String × Room)} (h : sid ∉ room.sockets) :
    disconnectSocket sid ((code, room) :: rest) =
      ((code, room) :: (disconnectSocket sid rest).1, (disconnectSocket sid rest).2) := by
  simp only [disconnectSocket, if_neg h]

theorem disconnectSocket_cons_hostDrop {sid code : String} {room : Room}
    {rest : List (String × Room)} (hmem : sid ∈ room.sockets)
    (hhost : room.hostSocketId = sid) (hh : (room.sockets.erase sid).head? = none) :
    disconnectSocket sid ((code, room) :: rest) = disconnectSocket sid rest := by
  simp only [disconnectSocket, if_pos hmem, if_pos hhost, hh]

theorem disconnectSocket_cons_hostSwap {sid code nextHost : String} {room : Room}
    {rest : List (String × Room)} (hmem : sid ∈ room.sockets)
    (hhost : room.hostSocketId = sid)
    (hh : (room.sockets.erase sid).head? = some nextHost) :
    disconnectSocket sid ((code, room) :: rest) =
      ((code, { room with
          sockets := room.sockets.erase sid
          reports := mapDelete room.reports sid
          hostSocketId := nextHost }) :: (disconnectSocket sid rest).1,
        Emission.roomInfo code nextHost (room.sockets.erase sid).length ::
          (disconnectSocket sid rest).2) := by
  simp only [disconnectSocket, if_pos hmem, if_pos hhost, hh]

theorem disconnectSocket_cons_emptyDrop {sid code : String} {room : Room}
    {rest : List (String × Room)} (hmem : sid ∈ room.sockets)
    (hhost : ¬ room.hostSocketId = sid) (hlen : (room.sockets.erase sid).length = 0) :
    disconnectSocket sid ((code, room) :: rest) = disconnectSocket sid rest := by
  simp only [disconnectSocket, if_pos hmem, if_neg hhost, hlen, if_true]

theorem disconnectSocket_cons_member {sid code : String} {room : Room}
    {rest : List (String × Room)} (hmem : sid ∈ room.sockets)
    (hhost : ¬ room.hostSocketId = sid) (hlen : ¬ (room.sockets.erase sid).length = 0) :
    disconnectSocket sid ((code, room) :: rest) =
      ((code, { room with
          sockets := room.sockets.erase sid
          reports := mapDelete room.reports sid }) :: (disconnectSocket sid rest).1,
        Emission.roomInfo code room.hostSocketId (room.sockets.erase sid).length ::
          (disconnectSocket sid rest).2) := by
  simp only [disconnectSocket, if_pos hmem, if_neg hhost, if_neg hlen]

theorem registryCreate_inv (reg : List (String × Room)) (code sid : String) (nowMs : ℚ)
    (hinv : RegistryInv reg) : RegistryInv (registryCreate reg code sid nowMs) := by
  intro p hp
  rcases mem_mapSet _ _ _ _ hp with hp | hp
  · exact hinv p hp
  · rw [hp]
    refine ⟨by simp [createdRoom], by simp [createdRoom]⟩

theorem registryJoin_inv (reg : List (String × Room)) (code sid : String)
    (hinv : RegistryInv reg) : RegistryInv (registryJoin reg code sid).1 := by
  unfold registryJoin
  cases hlk : assocLookup (normalizeCode code) reg with
  | none => exact hinv
  | some room =>
      intro p hp
      simp only at hp
      rcases mem_mapSet _ _ _ _ hp with hp | hp
      · exact hinv p hp
      · rw [hp]
        obtain ⟨_, hhost⟩ := hinv _ (assocLookup_mem hlk)
        exact ⟨addSocket_ne_nil _ _, mem_addSocket_of_mem sid hhost⟩

theorem disconnectSocket_inv (sid : String) : ∀ reg : List (String × Room),
    RegistryInv reg → RegistryInv (disconnectSocket sid reg).1 := by
  intro reg
  induction reg with
  | nil =>
      intro _ p hp
      cases hp
  | cons q rest ih =>
      intro hinv p hp
      obtain ⟨code, room⟩ := q
      have hinvRest : RegistryInv rest := fun p hp => hinv p (List.mem_cons_of_mem _ hp)
      have hinvHead := hinv (code, room) (List.mem_cons_self _ _)
      by_cases hmem : sid ∈ room.sockets
      · by_cases hhost : room.hostSocketId = sid
        · cases hh : (room.sockets.erase sid).head? with
          | none =>
              rw [disconnectSocket_cons_hostDrop hmem hhost hh] at hp
              exact ih hinvRest p hp
          | some nextHost =>
              rw [disconnectSocket_cons_hostSwap hmem hhost hh] at hp
              rcases List.mem_cons.mp hp with hp | hp
              · rw [hp]
                have hne : room.sockets.erase sid ≠ [] := by
                  intro hq
                  rw [hq] at hh
                  cases hh
                have hnmem : nextHost ∈ room.sockets.erase sid := by
                  cases he : room.sockets.erase sid with
                  | nil => exact absurd he hne
                  | cons a t =>
                      rw [he] at hh
                      injection hh with hh
                      rw [← hh]
                      exact List.mem_cons_self _ _
                exact ⟨hne, hnmem⟩
              · exact ih hinvRest p hp
        · by_cases hlen : (room.sockets.erase sid).length = 0
          · rw [disconnectSocket_cons_emptyDrop hmem hhost hlen] at hp
            exact ih hinvRest p hp
          · rw [disconnectSocket_cons_member hmem hhost hlen] at hp
            rcases List.mem_cons.mp hp with hp | hp
            · rw [hp]
              refine ⟨fun hq => hlen ?_, (List.mem_erase_of_ne hhost).mpr hinvHead.2⟩
              have hq2 : room.sockets.erase sid = [] := hq
              rw [hq2]
              rfl
            · exact ih hinvRest p hp
      · rw [disconnectSocket_cons_skip hmem] at hp
        rcases List.mem_cons.mp hp with hp | hp
        · rw [hp]
          exact hinvHead
        · exact ih hinvRest p hp

theorem disconnect_keys_sublist (sid : String) : ∀ reg : List (String × Room),
    ((disconnectSocket sid reg).1.map Prod.fst).Sublist (reg.map Prod.fst) := by
  intro reg
  induction reg with
  | nil => simp [disconnectSocket]
  | cons q rest ih =>
      obtain ⟨code, room⟩ := q
      by_cases hmem : sid ∈ room.sockets
      · by_cases hhost : room.hostSocketId = sid
        · cases hh : (room.sockets.erase sid).head? with
          | none =>
              rw [disconnectSocket_cons_hostDrop hmem hhost hh]
              exact ih.cons _
          | some nextHost =>
              rw [disconnectSocket_cons_hostSwap hmem hhost hh]
              exact ih.cons₂ _
        · by_cases hlen : (room.sockets.erase sid).length = 0
          · rw [disconnectSocket_cons_emptyDrop hmem hhost hlen]
            exact ih.cons _
          · rw [disconnectSocket_cons_member hmem hhost hlen]
            exact ih.cons₂ _
      · rw [disconnectSocket_cons_skip hmem]
        exact ih.cons₂ _

theorem assocLookup_eq_none_of_not_mem_keys {β : Type} :
    ∀ {l : List (String × β)} {k : String}, k ∉ l.map Prod.fst →
      assocLookup k l = none := by
  intro l
  induction l with
  | nil => intro k _; rfl
  | cons q rest ih =>
      intro k hk
      obtain ⟨k0, v0⟩ := q
      simp only [List.map_cons, List.mem_cons] at hk
      push_neg at hk
      simp only [assocLookup, if_neg hk.1]
      exact ih hk.2

/-- Host failover: disconnecting the host of a room that retains other
members promotes the first remaining member, keeps the room in the registry,
and rebroadcasts `room:info`. -/
theorem disconnect_host_failover (sid : String) :
    ∀ (reg : List (String × Room)) (code : String) (room : Room),
      assocLookup code reg = some room →
      room.hostSocketId = sid → sid ∈ room.sockets →
      room.sockets.erase sid ≠ [] →
      ∃ nextHost ∈ room.sockets.erase sid,
        assocLookup code (disconnectSocket sid reg).1 =
          some { room with
            sockets := room.sockets.erase sid
            reports := mapDelete room.reports sid
            hostSocketId := nextHost } ∧
        Emission.roomInfo code nextHost (room.sockets.erase sid).length ∈
          (disconnectSocket sid reg).2 := by
  intro reg
  induction reg with
  | nil => intro code room h; cases h
  | cons q rest ih =>
      intro code room hlk hhost hmem hne
      obtain ⟨k0, room0⟩ := q
      by_cases hk : code = k0
      · have hroom : room0 = room := by
          simp only [assocLookup, if_pos hk] at hlk
          exact Option.some.inj hlk
        subst hroom
        subst hk
        cases hh : (room0.sockets.erase sid).head? with
        | none =>
            cases he : room0.sockets.erase sid with
            | nil => exact absurd he hne
            | cons a t =>
                rw [he] at hh
                cases hh
        | some nextHost =>
            rw [disconnectSocket_cons_hostSwap hmem hhost hh]
            have hnmem : nextHost ∈ room0.sockets.erase sid := by
              cases he : room0.sockets.erase sid with
              | nil => exact absurd he hne
              | cons a t =>
                  rw [he] at hh
                  injection hh with hh
                  rw [← hh]
                  exact List.mem_cons_self _ _
            refine ⟨nextHost, hnmem, ?_, List.mem_cons_self _ _⟩
            simp [assocLookup]
      · have hlk2 : assocLookup code rest = some room := by
          simp only [assocLookup, if_neg hk] at hlk
          exact hlk
        obtain ⟨nextHost, hnmem, hfind, hemit⟩ := ih code room hlk2 hhost hmem hne
        by_cases hmem0 : sid ∈ room0.sockets
        · by_cases hhost0 : room0.hostSocketId = sid
          · cases hh : (room0.sockets.erase sid).head? with
            | none =>
                rw [disconnectSocket_cons_hostDrop hmem0 hhost0 hh]
                exact ⟨nextHost, hnmem, hfind, hemit⟩
            | some nh0 =>
                rw [disconnectSocket_cons_hostSwap hmem0 hhost0 hh]
                refine ⟨nextHost, hnmem, ?_, List.mem_cons_of_mem _ hemit⟩
                simp only [assocLookup, if_neg hk]
                exact hfind
          · by_cases hlen : (room0.sockets.erase sid).length = 0
            · rw [disconnectSocket_cons_emptyDrop hmem0 hhost0 hlen]
              exact ⟨nextHost, hnmem, hfind, hemit⟩
            · rw [disconnectSocket_cons_member hmem0 hhost0 hlen]
              refine ⟨nextHost, hnmem, ?_, List.mem_cons_of_mem _ hemit⟩
              simp only [assocLookup, if_neg hk]
              exact hfind
        · rw [disconnectSocket_cons_skip hmem0]
          refine ⟨nextHost, hnmem, ?_, hemit⟩
          simp only [assocLookup, if_neg hk]
          exact hfind

/-- Last-member departure: when the sole member of a room disconnects, the
room disappears from the registry (assuming the stored codes are distinct,
as they are for a JS `Map`). -/
theorem disconnect_last_member (sid : String) :
    ∀ (reg : List (String × Room)) (code : String) (room : Room),
      (reg.map Prod.fst).Nodup →
      assocLookup code reg = some room →
      room.hostSocketId = sid →
      room.sockets = [sid] →
      assocLookup code (disconnectSocket sid reg).1 = none := by
  intro reg
  induction reg with
  | nil => intro code room _ h; cases h
  | cons q rest ih =>
      intro code room hnd hlk hhost hsock
      obtain ⟨k0, room0⟩ := q
      have hndRest : (rest.map Prod.fst).Nodup := (List.nodup_cons.mp (by simpa using hnd)).2
      by_cases hk : code = k0
      · have hroom : room0 = room := by
          simp only [assocLookup, if_pos hk] at hlk
          exact Option.some.inj hlk
        subst hroom
        subst hk
        have hmem : sid ∈ room0.sockets := by rw [hsock]; exact List.mem_cons_self _ _
        have hh : (room0.sockets.erase sid).head? = none := by
          rw [hsock]
          simp [List.erase_cons_head]
        rw [disconnectSocket_cons_hostDrop hmem hhost hh]
        have hknotin : code ∉ rest.map Prod.fst :=
          (List.nodup_cons.mp (by simpa using hnd)).1
        have : code ∉ (disconnectSocket sid rest).1.map Prod.fst := fun hq =>
          hknotin ((disconnect_keys_sublist sid rest).mem hq)
        exact assocLookup_eq_none_of_not_mem_keys this
      · have hlk2 : assocLookup code rest = some room := by
          simp only [assocLookup, if_neg hk] at hlk
          exact hlk
        have htail := ih code room hndRest hlk2 hhost hsock
        by_cases hmem0 : sid ∈ room0.sockets
        · by_cases hhost0 : room0.hostSocketId = sid
          · cases hh : (room0.sockets.erase sid).head? with
            | none =>
                rw [disconnectSocket_cons_hostDrop hmem0 hhost0 hh]
                exact htail
            | some nh0 =>
                rw [disconnectSocket_cons_hostSwap hmem0 hhost0 hh]
                simp only [assocLookup, if_neg hk]
                exact htail
          · by_cases hlen : (room0.sockets.erase sid).length = 0
            · rw [disconnectSocket_cons_emptyDrop hmem0 hhost0 hlen]
              exact htail
            · rw [disconnectSocket_cons_member hmem0 hhost0 hlen]
              simp only [assocLookup, if_neg hk]
              exact htail
        · rw [disconnectSocket_cons_skip hmem0]
          simp only [assocLookup, if_neg hk]
          exact htail

/-- Claim C8: room creation, join and member disconnect all preserve the
registry invariant that every stored room has at least one member with its
host among them; when the host disconnects and other members remain, the
first remaining member is promoted to host, the room persists and
`room:info` is rebroadcast; when the last member disconnects the room is
removed, so a subsequent `room:join` with that code fails with
`RoomNotFound`. -/
theorem claim_C8_registry_invariant :
    (∀ (reg : List (String × Room)) (code sid : String) (nowMs : ℚ),
      RegistryInv reg → RegistryInv (registryCreate reg code sid nowMs)) ∧
    (∀ (reg : List (String × Room)) (code sid : String),
      RegistryInv reg → RegistryInv (registryJoin reg code sid).1) ∧
    (∀ (reg : List (String × Room)) (sid : String),
      RegistryInv reg → RegistryInv (disconnectSocket sid reg).1) ∧
    (∀ (reg : List (String × Room)) (code : String) (room : Room) (sid : String),
      RegistryInv reg → assocLookup code reg = some room →
      room.hostSocketId = sid → room.sockets.erase sid ≠ [] →
      ∃ nextHost ∈ room.sockets.erase sid,
        assocLookup code (disconnectSocket sid reg).1 =
          some { room with
            sockets := room.sockets.erase sid
            reports := mapDelete room.reports sid
            hostSocketId := nextHost } ∧
        Emission.roomInfo code nextHost (room.sockets.erase sid).length ∈
          (disconnectSocket sid reg).2) ∧
    (∀ (reg : List (String × Room)) (code : String) (room : Room) (sid sid2 : String),
      RegistryInv reg → (reg.map Prod.fst).Nodup →
      assocLookup code reg = some room → room.sockets = [sid] →
      normalizeCode code = code →
      assocLookup code (disconnectSocket sid reg).1 = none ∧
        (registryJoin (disconnectSocket sid reg).1 code sid2).2 =
          JoinResult.roomNotFound) := by
  refine ⟨registryCreate_inv, registryJoin_inv,
    fun reg sid => disconnectSocket_inv sid reg, ?_, ?_⟩
  · intro reg code room sid hinv hlk hhost hne
    have hmem : sid ∈ room.sockets := by
      rw [← hhost]
      exact (hinv _ (assocLookup_mem hlk)).2
    exact disconnect_host_failover sid reg code room hlk hhost hmem hne
  · intro reg code room sid sid2 hinv hnd hlk hsock hnorm
    have hhost : room.hostSocketId = sid := by
      have h2 := (hinv _ (assocLookup_mem hlk)).2
      rw [hsock] at h2
      simpa using h2
    have hnone := disconnect_last_member sid reg code room hnd hlk hhost hsock
    refine ⟨hnone, ?_⟩
    unfold registryJoin
    rw [hnorm, hnone]

/-- Witness for C8: host failover in the three-member room, and room removal
plus `RoomNotFound` on re-join after the last member of the one-member room
leaves. -/
theorem claim_C8_registry_invariant_witness :
    (∃ nextHost ∈ wRoom3.sockets.erase "A",
      assocLookup "AB23CD" (disconnectSocket "A" [("AB23CD", wRoom3)]).1 =
        some { wRoom3 with
          sockets := wRoom3.sockets.erase "A"
          reports := mapDelete wRoom3.reports "A"
          hostSocketId := nextHost } ∧
      Emission.roomInfo "AB23CD" nextHost (wRoom3.sockets.erase "A").length ∈
        (disconnectSocket "A" [("AB23CD", wRoom3)]).2) ∧
    (assocLookup "EF45GH" (disconnectSocket "A" [("EF45GH", wRoom1)]).1 = none ∧
      (registryJoin (disconnectSocket "A" [("EF45GH", wRoom1)]).1 "EF45GH" "B").2 =
        JoinResult.roomNotFound) := by
  constructor
  · exact claim_C8_registry_invariant.2.2.2.1 [("AB23CD", wRoom3)] "AB23CD" wRoom3 "A"
      (by intro p hp; rw [List.mem_singleton] at hp; rw [hp]; exact ⟨by decide, by decide⟩)
      rfl rfl (by decide)
  · exact claim_C8_registry_invariant.2.2.2.2 [("EF45GH", wRoom1)] "EF45GH" wRoom1 "A" "B"
      (by intro p hp; rw [List.mem_singleton] at hp; rw [hp]; exact ⟨by decide, by decide⟩)
      (by decide) rfl rfl (by decide)

theorem jsUpperChar_of_upperAlnum {c : Char} (h : isUpperAlnum c) : jsUpperChar c = c := by
  unfold isUpperAlnum at h
  unfold jsUpperChar
  rw [if_neg]
  rcases h with ⟨h1, h2⟩ | ⟨h1, h2⟩ <;> omega

theorem not_ws_of_upperAlnum {c : Char} (h : isUpperAlnum c) : isJsWhitespace c = false := by
  unfold isUpperAlnum at h
  simp only [isJsWhitespace, decide_eq_false_iff_not]
  rcases h with ⟨h1, h2⟩ | ⟨h1, h2⟩ <;> omega

theorem not_ws_of_upperAlnum_image {c : Char} (h : isUpperAlnum (jsUpperChar c)) :
    isJsWhitespace c = false := by
  by_cases hc : 97 ≤ c.toNat ∧ c.toNat ≤ 122
  · simp only [isJsWhitespace, decide_eq_false_iff_not]
    omega
  · rw [jsUpperChar, if_neg hc] at h
    exact not_ws_of_upperAlnum h

theorem dropWhile_append_of_all {p : Char → Bool} :
    ∀ {l1 l2 : List Char}, (∀ c ∈ l1, p c = true) →
      List.dropWhile p (l1 ++ l2) = List.dropWhile p l2 := by
  intro l1
  induction l1 with
  | nil => intro l2 _; rfl
  | cons a t ih =>
      intro l2 h
      rw [List.cons_append, List.dropWhile_cons, if_pos (h a (List.mem_cons_self _ _))]
      exact ih fun c hc => h c (List.mem_cons_of_mem _ hc)

theorem dropWhile_eq_nil_of_all {p : Char → Bool} {l : List Char}
    (h : ∀ c ∈ l, p c = true) : List.dropWhile p l = [] := by
  have := @dropWhile_append_of_all p l ([] : List Char) h
  rwa [List.append_nil] at this

theorem dropWhile_eq_self_of_all {p : Char → Bool} {l : List Char}
    (h : ∀ c ∈ l, p c = false) : List.dropWhile p l = l := by
  cases l with
  | nil => rfl
  | cons a t =>
      rw [List.dropWhile_cons, if_neg]
      rw [h a (List.mem_cons_self _ _)]
      simp

theorem jsTrimChars_eq (ws1 core ws2 : List Char)
    (h1 : ∀ c ∈ ws1, isJsWhitespace c = true)
    (h2 : ∀ c ∈ ws2, isJsWhitespace c = true)
    (h3 : ∀ c ∈ core, isJsWhitespace c = false) :
    jsTrimChars (ws1 ++ core ++ ws2) = core := by
  unfold jsTrimChars
  rw [List.append_assoc, dropWhile_append_of_all h1]
  cases core with
  | nil =>
      rw [List.nil_append, dropWhile_eq_nil_of_all h2]
      rfl
  | cons c0 t =>
      rw [List.cons_append, List.dropWhile_cons,
        if_neg (by rw [h3 c0 (List.mem_cons_self _ _)]; simp)]
      rw [show (c0 :: (t ++ ws2)) = (c0 :: t) ++ ws2 from rfl, List.reverse_append,
        dropWhile_append_of_all (fun c hc => h2 c (List.mem_reverse.mp hc)),
        dropWhile_eq_self_of_all (fun c hc => h3 c (List.mem_reverse.mp hc)),
        List.reverse_reverse]

theorem getD_mem_of_lt {α : Type} : ∀ (l : List α) (n : ℕ) (d : α), n < l.length →
    l.getD n d ∈ l := by
  intro l
  induction l with
  | nil =>
      intro n d h
      simp at h
  | cons a t ih =>
      intro n d h
      cases n with
      | zero => exact List.mem_cons_self _ _
      | succ m =>
          refine List.mem_cons_of_mem _ (ih m d ?_)
          simpa using h

theorem roomCodeAlphabet_upperAlnum : ∀ c ∈ roomCodeAlphabet, isUpperAlnum c := by decide

theorem randomRoomCode_upperAlnum (rs : List ℕ) : ∀ c ∈ randomRoomCode rs, isUpperAlnum c := by
  intro c hc
  obtain ⟨i, _, hi⟩ := List.mem_map.mp hc
  rw [← hi]
  refine roomCodeAlphabet_upperAlnum _ (getD_mem_of_lt _ _ _ ?_)
  exact Nat.mod_lt _ (by decide)

theorem base36Char_image_upperAlnum : ∀ d < 36, isUpperAlnum (jsUpperChar (base36Char d)) := by
  decide

theorem natToBase36_chars : ∀ n : ℕ, ∀ c ∈ natToBase36 n, ∃ d, d < 36 ∧ c = base36Char d := by
  intro n
  induction n using Nat.strong_induction_on with
  | _ n ih =>
      intro c hc
      by_cases h : n < 36
      · rw [natToBase36, dif_pos h] at hc
        rw [List.mem_singleton] at hc
        exact ⟨n, h, hc⟩
      · rw [natToBase36, dif_neg h] at hc
        rcases List.mem_append.mp hc with hc | hc
        · exact ih (n / 36) (Nat.div_lt_self (by omega) (by omega)) c hc
        · rw [List.mem_singleton] at hc
          exact ⟨n % 36, Nat.mod_lt _ (by omega), hc⟩

theorem fallbackRoomCode_upperAlnum (n : ℕ) : ∀ c ∈ fallbackRoomCode n, isUpperAlnum c := by
  intro c hc
  unfold fallbackRoomCode at hc
  have hc2 := List.mem_of_mem_drop hc
  obtain ⟨c0, hc0, him⟩ := List.mem_map.mp hc2
  obtain ⟨d, hd, hcd⟩ := natToBase36_chars n c0 hc0
  rw [← him, hcd]
  exact base36Char_image_upperAlnum d hd

/-- Claim C10: room-code lookup at the public interface is case- and
surrounding-whitespace-insensitive: the `room:join`, `playback:action`,
`playback:request` and `playback:report` handlers all normalize the supplied
code with `trim().toUpperCase()` before the registry lookup, so any string
differing from a stored (upper-case alphanumeric) code only by letter case
and leading/trailing whitespace resolves to the same room; and both the
random generator and the timestamp fallback of room creation produce only
upper-case alphanumeric codes, so normalization never misses a stored
room. -/
theorem claim_C10_code_normalization :
    (∀ (ws1 ws2 core codeChars : List Char),
      (∀ c ∈ ws1, isJsWhitespace c = true) →
      (∀ c ∈ ws2, isJsWhitespace c = true) →
      (∀ c ∈ codeChars, isUpperAlnum c) →
      core.map jsUpperChar = codeChars →
      normalizeCode (String.mk (ws1 ++ core ++ ws2)) = String.mk codeChars) ∧
    (∀ (reg : List (String × Room)) (room : Room) (ws1 ws2 core codeChars : List Char),
      (∀ c ∈ ws1, isJsWhitespace c = true) →
      (∀ c ∈ ws2, isJsWhitespace c = true) →
      (∀ c ∈ codeChars, isUpperAlnum c) →
      core.map jsUpperChar = codeChars →
      assocLookup (String.mk codeChars) reg = some room →
      assocLookup (normalizeCode (String.mk (ws1 ++ core ++ ws2))) reg = some room) ∧
    (∀ rs : List ℕ, ∀ c ∈ randomRoomCode rs, isUpperAlnum c) ∧
    (∀ n : ℕ, ∀ c ∈ fallbackRoomCode n, isUpperAlnum c) := by
  have hmain : ∀ (ws1 ws2 core codeChars : List Char),
      (∀ c ∈ ws1, isJsWhitespace c = true) →
      (∀ c ∈ ws2, isJsWhitespace c = true) →
      (∀ c ∈ codeChars, isUpperAlnum c) →
      core.map jsUpperChar = codeChars →
      normalizeCode (String.mk (ws1 ++ core ++ ws2)) = String.mk codeChars := by
    intro ws1 ws2 core codeChars h1 h2 h3 hmap
    have hcore : ∀ c ∈ core, isJsWhitespace c = false := by
      intro c hc
      refine not_ws_of_upperAlnum_image (h3 _ ?_)
      rw [← hmap]
      exact List.mem_map_of_mem _ hc
    unfold normalizeCode
    show String.mk ((jsTrimChars (ws1 ++ core ++ ws2)).map jsUpperChar) = _
    rw [jsTrimChars_eq ws1 core ws2 h1 h2 hcore, hmap]
  refine ⟨hmain, ?_, randomRoomCode_upperAlnum, fallbackRoomCode_upperAlnum⟩
  intro reg room ws1 ws2 core codeChars h1 h2 h3 hmap hlk
  rw [hmain ws1 ws2 core codeChars h1 h2 h3 hmap]
  exact hlk

/-- Witness for C10: `" ab23cd\n"` normalizes to `"AB23CD"` and resolves to
the stored room. -/
theorem claim_C10_code_normalization_witness :
    normalizeCode (String.mk ([' '] ++ "ab23cd".data ++ ['\n'])) = String.mk "AB23CD".data ∧
    assocLookup (normalizeCode (String.mk ([' '] ++ "ab23cd".data ++ ['\n'])))
      [("AB23CD", wRoom3)] = some wRoom3 :=
  ⟨claim_C10_code_normalization.1 [' '] ['\n'] "ab23cd".data "AB23CD".data
    (by decide) (by decide) (by decide) (by decide),
   claim_C10_code_normalization.2.1 [("AB23CD", wRoom3)] wRoom3 [' '] ['\n']
    "ab23cd".data "AB23CD".data
    (by decide) (by decide) (by decide) (by decide) rfl⟩

/-- Claim C2: every `applyPlaybackAction` call increments the room's
`playback.seq` by exactly one, unconditionally — for every action type, with
or without a `timeSeconds` payload — so the new `seq` is strictly greater
than the old one, and across any sequence of calls `seq` grows by exactly the
number of calls (hence is strictly increasing over the room's lifetime). -/
theorem claim_C2_seq_increments :
    (∀ (room : Room) (nowMs : ℚ) (a : PlaybackAction),
      (applyPlaybackAction room nowMs a).playback.seq = room.playback.seq + 1) ∧
    (∀ (room : Room) (nowMs : ℚ) (a : PlaybackAction),
      room.playback.seq < (applyPlaybackAction room nowMs a).playback.seq) ∧
    (∀ (room : Room) (l : List (ℚ × PlaybackAction)),
      (l.foldl (fun r p => applyPlaybackAction r p.1 p.2) room).playback.seq =
        room.playback.seq + l.length) := by
  refine ⟨applyPlaybackAction_seq, fun room nowMs a => ?_, foldl_applyPlaybackAction_seq⟩
  rw [applyPlaybackAction_seq]
  omega

/-- The position stored by `applyPlaybackAction` is never negative: it is
either the snapshot's `max 0 _` or the clamped `max 0 timeSeconds`. -/
theorem applyPlaybackAction_pos_nonneg (room : Room) (nowMs : ℚ) (a : PlaybackAction) :
    0 ≤ (applyPlaybackAction room nowMs a).playback.positionSeconds := by
  cases a with
  | mk type timeSeconds =>
    cases type <;> cases timeSeconds <;>
      simp [applyPlaybackAction, getPlaybackSnapshot, le_max_iff]

/-- `applyPlaybackAction` leaves `playbackRate` unchanged except for a `rate`
action carrying a payload, which clamps it into `[1/2, 2]`. -/
theorem applyPlaybackAction_rate_bounds (room : Room) (nowMs : ℚ) (a : PlaybackAction)
    (h : 1/2 ≤ room.playback.playbackRate ∧ room.playback.playbackRate ≤ 2) :
    1/2 ≤ (applyPlaybackAction room nowMs a).playback.playbackRate ∧
      (applyPlaybackAction room nowMs a).playback.playbackRate ≤ 2 := by
  cases a with
  | mk type timeSeconds =>
    cases type <;> cases timeSeconds <;>
      first
        | exact h
        | exact ⟨le_min (by norm_num) (le_max_left _ _), min_le_left _ _⟩

/-- Claim C9: `applyPlaybackAction` keeps the playback state within its valid
ranges: a negative target time is clamped to 0 (`seek` with `-5` yields
exactly 0), a `rate` payload is clamped into `[0.5, 2.0]` (5.0 yields 2.0,
0.1 yields 0.5), the stored position is never negative after any action, and
every reachable playback state satisfies `positionSeconds ≥ 0` and
`playbackRate ∈ [0.5, 2.0]`. -/
theorem claim_C9_clamping :
    (∀ (room : Room) (nowMs : ℚ),
      (applyPlaybackAction room nowMs ⟨.seek, some (-5)⟩).playback.positionSeconds = 0) ∧
    (∀ (room : Room) (nowMs : ℚ) (a : PlaybackAction),
      0 ≤ (applyPlaybackAction room nowMs a).playback.positionSeconds) ∧
    (∀ (room : Room) (nowMs : ℚ),
      (applyPlaybackAction room nowMs ⟨.rate, some 5⟩).playback.playbackRate = 2) ∧
    (∀ (room : Room) (nowMs : ℚ),
      (applyPlaybackAction room nowMs ⟨.rate, some (1/10)⟩).playback.playbackRate = 1/2) ∧
    (∀ (room : Room) (nowMs : ℚ) (t : ℚ),
      1/2 ≤ (applyPlaybackAction room nowMs ⟨.rate, some t⟩).playback.playbackRate ∧
        (applyPlaybackAction room nowMs ⟨.rate, some t⟩).playback.playbackRate ≤ 2) ∧
    (∀ room : Room, ReachableRoom room →
      0 ≤ room.playback.positionSeconds ∧
        1/2 ≤ room.playback.playbackRate ∧ room.playback.playbackRate ≤ 2) := by
  refine ⟨?_, applyPlaybackAction_pos_nonneg, ?_, ?_, ?_, ?_⟩
  · intro room nowMs
    show max 0 (-5 : ℚ) = 0
    norm_num
  · intro room nowMs
    show min 2 (max (1/2) (max 0 (5:ℚ))) = 2
    norm_num
  · intro room nowMs
    show min 2 (max (1/2) (max 0 (1/10:ℚ))) = 1/2
    norm_num
  · intro room nowMs t
    constructor
    · show (1/2 : ℚ) ≤ min 2 (max (1/2) (max 0 t))
      exact le_min (by norm_num) (le_max_left _ _)
    · show min 2 (max (1/2) (max 0 t)) ≤ (2 : ℚ)
      exact min_le_left _ _
  · intro room h
    induction h with
    | init code hostSocketId nowMs =>
        refine ⟨le_refl 0, by norm_num [createdRoom], by norm_num [createdRoom]⟩
    | step room nowMs a _ ih =>
        exact ⟨applyPlaybackAction_pos_nonneg room nowMs a,
          applyPlaybackAction_rate_bounds room nowMs a ⟨ih.2.1, ih.2.2⟩⟩

/-- Witness for C9: the reachability invariant instantiated at a concretely
created room. -/
theorem claim_C9_clamping_witness :
    0 ≤ (createdRoom "AB23CD" "h" 0).playback.positionSeconds ∧
      1/2 ≤ (createdRoom "AB23CD" "h" 0).playback.playbackRate ∧
        (createdRoom "AB23CD" "h" 0).playback.playbackRate ≤ 2 :=
  claim_C9_clamping.2.2.2.2.2 (createdRoom "AB23CD" "h" 0)
    (ReachableRoom.init "AB23CD" "h" 0)

end WatchParty
